import Mathlib

/-!
Verification of the Notetkr attachment subsystem
(`internal/services/cleanup.go`, the clipboard image handler, and the
editor's paste operation).

The Go code is shallowly embedded as follows.

* A file system is a list of `FSFile` (path plus content); file size is the
  content length.  `filepath.Walk` visits directory entries in sorted order,
  so the files below a root are enumerated in lexicographic-by-directory
  order; the flat model realises this as a merge sort by component-wise
  path order (`walkFiles`), and a separate directory-tree model (`FTree`,
  `walkTree`) mirrors the per-directory sorting of the real `filepath.Walk`
  and is proved to agree with the flat model.
* Transient I/O failures (stat / remove / open / read / write on an
  individual file) are modelled by a Boolean oracle over paths
  (`IOOracle`).  The walk callbacks in the Go code return `nil` on every
  error, hence `filepath.Walk` itself can never return a non-nil error for
  these callbacks; the `Except` result of `CleanImages` mirrors the Go
  signature, with the dead error branches noted where they occur.
* SHA-256 is abstracted as a parameter `hashFn : String → String`; the
  claims under study depend only on digests being a function of content.
* Go regular expressions are embedded as character-list scanners.  The two
  patterns in the source are deterministic (their character classes exclude
  the very delimiter that follows them), so leftmost matching needs no
  backtracking; see `matchImageAt` and `matchSpecAt`.
-/

namespace Notetkr

/-! ## Strings, paths and the substring test (`strings.Contains`) -/

/-- Substring containment on character lists; `containsSubL pat l` is
`strings.Contains l pat`. -/
def containsSubL (pat : List Char) : List Char → Bool
  | [] => pat.isEmpty
  | c :: t => pat.isPrefixOf (c :: t) || containsSubL pat t

/-- `strings.Contains s pat`. -/
def strContains (s pat : String) : Bool := containsSubL pat.data s.data

/-- `strings.HasSuffix`, as a suffix test on the character data. -/
def hasSuffixStr (s suf : String) : Bool := suf.data.isSuffixOf s.data

/-- `strings.ToLower`, restricted to the ASCII range used by the
extension allow-list. -/
def toLowerStr (s : String) : String := (s.data.map Char.toLower).asString

/-- `filepath.Ext`: the suffix beginning at the final dot in the final
slash-separated element of the path, empty if there is no dot. -/
def extOf (p : String) : String :=
  let seg := p.data.reverse.takeWhile (· ≠ '/')
  if seg.contains '.' then ((seg.takeWhile (· ≠ '.')) ++ ['.']).reverse.asString
  else ""

/-- `filepath.IsAbs` on Unix, on character data. -/
def isAbsL : List Char → Bool
  | c :: _ => c = '/'
  | [] => false

/-- `filepath.IsAbs` on Unix. -/
def isAbs (p : String) : Bool := isAbsL p.data

/-- `strings.Split` on a single-character separator. -/
def splitChar (sep : Char) : List Char → List (List Char)
  | [] => [[]]
  | c :: t =>
    if c = sep then [] :: splitChar sep t
    else
      match splitChar sep t with
      | h :: r => (c :: h) :: r
      | [] => [[c]]

/-- `strings.Split` on the single separator `/`. -/
def splitSlash : List Char → List (List Char) := splitChar '/' 

/-- Join components with `/` separators. -/
def joinSlash (l : List (List Char)) : List Char := List.intercalate ['/'] l

/-- One step of `filepath.Clean`'s component processing: empty and `"."`
components are dropped, `".."` pops a previous component when possible
(and is dropped at the root of a rooted path). -/
def cleanStep (rooted : Bool) (acc : List (List Char)) (c : List Char) : List (List Char) :=
  if c = [] ∨ c = ['.'] then acc
  else if c = ['.', '.'] then
    match acc with
    | [] => if rooted then [] else [['.', '.']]
    | h :: t => if h = ['.', '.'] then ['.', '.'] :: h :: t else t
  else c :: acc

/-- `filepath.Clean` on Unix, on character data. -/
def cleanPathL (cs : List Char) : List Char :=
  let rooted := isAbsL cs
  let comps := (splitSlash cs).foldl (cleanStep rooted) []
  let body := joinSlash comps.reverse
  if rooted then (if body = [] then ['/'] else '/' :: body)
  else (if body = [] then ['.'] else body)

/-- `filepath.Clean` on Unix. -/
def cleanPath (p : String) : String := (cleanPathL p.data).asString

/-- `filepath.Join` of two elements on Unix: concatenation with a slash,
followed by `Clean` (empty elements are dropped by `Join`). -/
def joinPath (a b : String) : String :=
  if a = "" then cleanPath b
  else if b = "" then cleanPath a
  else (cleanPathL (a.data ++ '/' :: b.data)).asString

/-- `filepath.Dir`: everything up to (and excluding) the final path
element, cleaned; `"."` when the path has no slash. -/
def dirPath (p : String) : String :=
  (cleanPathL (p.data.reverse.dropWhile (· ≠ '/')).reverse).asString

/-- The path components used by `filepath.Rel` ("/" is the lone root
component list, "." is the empty list). -/
def pathCompsL (cs : List Char) : List (List Char) :=
  if cs = ['/'] then [[]] else if cs = ['.'] then [] else splitSlash cs

/-- Longest common prefix of two lists. -/
def commonPref {α : Type} [DecidableEq α] : List α → List α → List α
  | a :: as, b :: bs => if a = b then a :: commonPref as bs else []
  | _, _ => []

/-- `filepath.Rel` on Unix (for the cleaned inputs this code passes it):
strips the common component prefix, emits one `".."` per remaining base
component, then the remaining target components. -/
def relPath (basepath targpath : String) : Except String String :=
  let base := cleanPathL basepath.data
  let targ := cleanPathL targpath.data
  if targ = base then .ok "."
  else if isAbsL basepath.data ≠ isAbsL targpath.data then
    .error "Rel: cannot make relative"
  else
    let bl := pathCompsL base
    let tl := pathCompsL targ
    let com := commonPref bl tl
    let brest := bl.drop com.length
    if brest.contains ['.', '.'] then .error "Rel: cannot make relative"
    else .ok (joinSlash
      (List.replicate brest.length ['.', '.'] ++ tl.drop com.length)).asString

/-! ## The file-system model -/

/-- A regular file: absolute path plus content.  The byte size reported by
`os.Stat` is the content length. -/
structure FSFile where
  path : String
  content : String
deriving DecidableEq, Repr

/-- A file-system state: the finite set of regular files, as a list. -/
abbrev FS := List FSFile

/-- Size reported by `os.Stat` for a file. -/
def fsize (f : FSFile) : Nat := f.content.length

/-- Look a path up in the file system. -/
def fsLookup (fs : FS) (p : String) : Option FSFile :=
  fs.find? (fun f => f.path == p)

/-- `os.Remove`: drop the file at `p` (the caller checks existence). -/
def fsRemove (fs : FS) (p : String) : FS :=
  fs.filter (fun f => f.path != p)

/-- `os.WriteFile`: overwrite the content of an existing file, or create
the file when it is absent. -/
def fsWrite (fs : FS) (p c : String) : FS :=
  if (fsLookup fs p).isSome then
    fs.map (fun f => if f.path == p then { f with content := c } else f)
  else fs ++ [⟨p, c⟩]

/-- Per-path transient I/O failure oracle.  Each flag makes the
corresponding operation on that path fail. -/
structure IOOracle where
  statFails : String → Bool
  removeFails : String → Bool
  hashOpenFails : String → Bool
  docOpenFails : String → Bool
  readFileFails : String → Bool
  writeFileFails : String → Bool

/-- The oracle under which every I/O operation succeeds. -/
def idealIO : IOOracle :=
  ⟨fun _ => false, fun _ => false, fun _ => false,
   fun _ => false, fun _ => false, fun _ => false⟩

/-- `os.Stat`: succeeds when the file exists and the oracle allows it,
reporting the size. -/
def statSize (o : IOOracle) (fs : FS) (p : String) : Option Nat :=
  if o.statFails p then none else (fsLookup fs p).map fsize

/-! ## Walk order

`filepath.Walk` reads each directory, sorts the entry names, and recurses,
so the regular files below a root are produced in lexicographic order of
their component lists.  The flat model sorts by that order directly; the
tree model below (`walkTree`) performs the per-directory sort of the real
walk and is proved equivalent. -/

/-- Lexicographic (byte-wise) order on names, as Go's `sort.Strings`
compares directory entries. -/
def charsLt : List Char → List Char → Bool
  | [], [] => false
  | [], _ :: _ => true
  | _ :: _, [] => false
  | a :: as, b :: bs => if a = b then charsLt as bs else decide (a < b)

/-- Component-wise path order (lexicographic on the `/`-separated
components, each compared as a name). -/
def compLex : List (List Char) → List (List Char) → Bool
  | [], _ => true
  | _ :: _, [] => false
  | a :: as, b :: bs => if a = b then compLex as bs else charsLt a b

/-- Walk order on full paths. -/
def pathLe (p q : String) : Bool := compLex (splitSlash p.data) (splitSlash q.data)

/-- Is `p` a regular file strictly below directory `root`? -/
def isUnder (root p : String) : Bool := (root.data ++ ['/']).isPrefixOf p.data

/-- The regular files below `root`, in walk order.  (The sort is an
insertion sort; on the duplicate-free path sets a real walk produces, any
sort by this total order yields the same list.) -/
def walkFiles (fs : FS) (root : String) : List FSFile :=
  (fs.filter (fun f => isUnder root f.path)).insertionSort
    (fun a b => pathLe a.path b.path = true)

/-! ## Attachment inventory (`findAllImages`) -/

/-- The fixed image-extension allow-list. -/
def imageExts : List String := [".png", ".jpg", ".jpeg", ".gif", ".bmp", ".webp"]

/-- Membership test of `findAllImages`'s walk callback: the path contains
`.attachments` as a substring and its lowercased extension is allowed. -/
def isImagePath (p : String) : Bool :=
  strContains p ".attachments" && imageExts.contains (toLowerStr (extOf p))

/-- `findAllImages`: walk the notes tree then the journal tree and collect
attachment candidates.  The walk callback returns `nil` on every error, so
the Go function's error result is always `nil`; the list is returned
directly. -/
def findAllImages (fs : FS) (notesDir journalDir : String) : List String :=
  ((walkFiles fs notesDir) ++ (walkFiles fs journalDir)).filterMap
    (fun f => if isImagePath f.path then some f.path else none)

/-! ## The reference scanner

Embeds Go's `regexp` pattern for markdown image markers,
`!\[([^\]]*)\]\(([^)]+)\)`.  Both character classes exclude the delimiter
that follows them, so at a given position the match is forced: the alt
text runs to the first `]`, the path to the first `)`.  `FindAllStringSubmatch`
takes leftmost, non-overlapping matches. -/

/-- Match the image-marker pattern at the head of the list, returning
`(alt text, raw path, remainder)`. -/
def matchImageAt (cs : List Char) : Option (List Char × List Char × List Char) :=
  match cs with
  | c0 :: c1 :: rest =>
    if c0 = '!' ∧ c1 = '[' then
      let alt := rest.takeWhile (· ≠ ']')
      match rest.dropWhile (· ≠ ']') with
      | d0 :: d1 :: rest2 =>
        if d0 = ']' ∧ d1 = '(' then
          let pth := rest2.takeWhile (· ≠ ')')
          match rest2.dropWhile (· ≠ ')') with
          | e0 :: rest3 =>
            if e0 = ')' ∧ pth ≠ [] then some (alt, pth, rest3) else none
          | _ => none
        else none
      | _ => none
    else none
  | _ => none

theorem matchImageAt_length_lt {cs a p rest} (h : matchImageAt cs = some (a, p, rest)) :
    rest.length < cs.length := by
  unfold matchImageAt at h
  split at h
  case h_2 => exact absurd h (by simp)
  case h_1 c0 c1 r =>
    split at h
    case isFalse => exact absurd h (by simp)
    case isTrue =>
      split at h
      case h_2 => exact absurd h (by simp)
      case h_1 d0 d1 r2 heq1 =>
        split at h
        case isFalse => exact absurd h (by simp)
        case isTrue =>
          split at h
          case h_2 => exact absurd h (by simp)
          case h_1 e0 r3 heq2 =>
            dsimp only at h
            split at h
            case isFalse => exact absurd h (by simp)
            case isTrue =>
              simp only [Option.some.injEq, Prod.mk.injEq] at h
              obtain ⟨-, -, rfl⟩ := h
              have hd1 : (d0 :: d1 :: r2).length ≤ r.length := by
                rw [← heq1]; exact (List.dropWhile_sublist _).length_le
              have hd2 : (e0 :: r3).length ≤ r2.length := by
                rw [← heq2]; exact (List.dropWhile_sublist _).length_le
              simp only [List.length_cons] at hd1 hd2 ⊢
              omega

/-- Fuelled scanner loop; `cs.length` fuel always suffices, and the
fuel keeps the recursion structural so that the kernel can evaluate it. -/
def scanGo : Nat → List Char → List (List Char × List Char)
  | 0, _ => []
  | _ + 1, [] => []
  | fuel + 1, c :: t =>
    match matchImageAt (c :: t) with
    | some (a, p, rest) => (a, p) :: scanGo fuel rest
    | none => scanGo fuel t

/-- Leftmost, non-overlapping matches of the image-marker pattern over one
line, as `(alt, raw path)` pairs — `FindAllStringSubmatch` with submatches
1 and 2. -/
def scanLineAux (cs : List Char) : List (List Char × List Char) :=
  scanGo cs.length cs

theorem scanGo_eq_of_le : ∀ {f1 f2 : Nat} {cs : List Char},
    cs.length ≤ f1 → cs.length ≤ f2 → scanGo f1 cs = scanGo f2 cs := by
  intro f1
  induction f1 with
  | zero =>
    intro f2 cs h1 _
    have hnil : cs = [] := List.length_eq_zero.mp (Nat.le_zero.mp h1)
    subst hnil
    cases f2 <;> rfl
  | succ f ih =>
    intro f2 cs h1 h2
    cases cs with
    | nil => cases f2 <;> rfl
    | cons c t =>
      cases f2 with
      | zero => simp at h2
      | succ f2' =>
        simp only [List.length_cons] at h1 h2
        show scanGo (f + 1) (c :: t) = scanGo (f2' + 1) (c :: t)
        simp only [scanGo]
        cases hm : matchImageAt (c :: t) with
        | some m =>
          obtain ⟨a, p, rest⟩ := m
          have hlt := matchImageAt_length_lt hm
          simp only [List.length_cons] at hlt
          exact congrArg _ (ih (by omega) (by omega))
        | none => exact ih (by omega) (by omega)

theorem scanLineAux_some {cs a p rest} (hm : matchImageAt cs = some (a, p, rest)) :
    scanLineAux cs = (a, p) :: scanLineAux rest := by
  have hlt := matchImageAt_length_lt hm
  unfold scanLineAux
  cases cs with
  | nil => exact absurd hm (by simp [matchImageAt])
  | cons c t =>
    have hlt2 : rest.length ≤ t.length := by simp only [List.length_cons] at hlt; omega
    show scanGo (t.length + 1) (c :: t) = _
    simp only [scanGo, hm]
    show (a, p) :: scanGo t.length rest = _
    rw [@scanGo_eq_of_le t.length rest.length rest hlt2 (le_refl _)]

theorem scanLineAux_nil : scanLineAux [] = [] := rfl

theorem scanLineAux_none_cons {c t} (hm : matchImageAt (c :: t) = none) :
    scanLineAux (c :: t) = scanLineAux t := by
  unfold scanLineAux
  show scanGo (t.length + 1) (c :: t) = _
  simp only [scanGo, hm]

/-- Scanner over one line of document text. -/
def scanLine (s : String) : List (String × String) :=
  (scanLineAux s.data).map (fun m => (m.1.asString, m.2.asString))

/-! ## Image references (`findAllImageReferences`, `normalizeImagePath`) -/

/-- Where an image is referenced: owning document, line number, raw path
exactly as captured by the regex. -/
structure ImageReference where
  FilePath : String
  LineNum : Nat
  ImagePath : String
deriving DecidableEq, Repr

/-- Lines of a document as read by `bufio.Scanner` (LF line endings; a
trailing newline yields one final empty line, which can hold no match).
-/
def docLines (s : String) : List String :=
  (splitChar '\n' s.data).map List.asString

/-- The references found in one document: every regex match on every line
whose captured path contains `.attachments`. -/
def refsOfDoc (f : FSFile) : List ImageReference :=
  (docLines f.content).enum.flatMap (fun li =>
    (scanLine li.2).filterMap (fun m =>
      if strContains m.2 ".attachments" then
        some ⟨f.path, li.1 + 1, m.2⟩
      else none))

/-- `findAllImageReferences`: walk the notes tree then the journal tree,
scanning every `.md` file that opens successfully.  As with
`findAllImages`, the walk callback swallows every error, so the Go
function's error result is always `nil`. -/
def findAllImageReferences (o : IOOracle) (fs : FS) (notesDir journalDir : String) :
    List ImageReference :=
  ((walkFiles fs notesDir) ++ (walkFiles fs journalDir)).flatMap (fun f =>
    if hasSuffixStr f.path ".md" && !o.docOpenFails f.path then refsOfDoc f else [])

/-- `normalizeImagePath`: an absolute raw path is cleaned; otherwise it is
joined with the owning document's directory and cleaned. -/
def normalizeImagePath (imagePath baseDir : String) : String :=
  if isAbs imagePath then cleanPath imagePath
  else cleanPath (joinPath baseDir imagePath)

/-! ## The reference rewriter (`updateFileReferences`)

`updateFileReferences` builds, for each reference, the regex
`!\[([^\]]*)\]\(<quoted raw path>\)` and calls `ReplaceAllString` with the
template `![$1](<relative path>)`.  The raw path is matched literally
(`regexp.QuoteMeta`); since a captured raw path never contains `)`, the
match at a given position is again forced.  The model assumes the
replacement path contains no `$` (true of every cleaned relative path this
code produces from `$`-free file paths), so the template's only variable
is `$1`. -/

/-- Match `!\[([^\]]*)\]\(D\)` at the head of the list for the literal
path `D`, returning `(alt text, remainder)`. -/
def matchSpecAt (D : List Char) (cs : List Char) : Option (List Char × List Char) :=
  match cs with
  | c0 :: c1 :: rest =>
    if c0 = '!' ∧ c1 = '[' then
      let alt := rest.takeWhile (· ≠ ']')
      match rest.dropWhile (· ≠ ']') with
      | d0 :: d1 :: rest2 =>
        if d0 = ']' ∧ d1 = '(' then
          if D.isPrefixOf rest2 then
            match rest2.drop D.length with
            | e0 :: rest3 => if e0 = ')' then some (alt, rest3) else none
            | _ => none
          else none
        else none
      | _ => none
    else none
  | _ => none

theorem matchSpecAt_length_lt {D cs a rest} (h : matchSpecAt D cs = some (a, rest)) :
    rest.length < cs.length := by
  unfold matchSpecAt at h
  split at h
  case h_2 => exact absurd h (by simp)
  case h_1 c0 c1 r =>
    split at h
    case isFalse => exact absurd h (by simp)
    case isTrue =>
      split at h
      case h_2 => exact absurd h (by simp)
      case h_1 d0 d1 r2 heq1 =>
        split at h
        case isFalse => exact absurd h (by simp)
        case isTrue =>
          split at h
          case isFalse => exact absurd h (by simp)
          case isTrue =>
            split at h
            case h_2 => exact absurd h (by simp)
            case h_1 e0 r3 heq2 =>
              split at h
              case isFalse => exact absurd h (by simp)
              case isTrue =>
                simp only [Option.some.injEq, Prod.mk.injEq] at h
                obtain ⟨-, rfl⟩ := h
                have hd1 : (d0 :: d1 :: r2).length ≤ r.length := by
                  rw [← heq1]; exact (List.dropWhile_sublist _).length_le
                have hd2 : (e0 :: r3).length ≤ r2.length := by
                  rw [← heq2]
                  simpa using Nat.sub_le r2.length D.length
                simp only [List.length_cons] at hd1 hd2 ⊢
                omega

/-- Fuelled replacement loop; `cs.length` fuel always suffices. -/
def replGo (D REL : List Char) : Nat → List Char → List Char
  | 0, _ => []
  | _ + 1, [] => []
  | fuel + 1, c :: t =>
    match matchSpecAt D (c :: t) with
    | some (alt, rest) =>
      ('!' :: '[' :: alt) ++ (']' :: '(' :: REL) ++ (')' :: replGo D REL fuel rest)
    | none => c :: replGo D REL fuel t

/-- `ReplaceAllString` for the specific-reference pattern: leftmost,
non-overlapping occurrences of `![alt](D)` become `![alt](REL)`. -/
def replaceAllAux (D REL : List Char) (cs : List Char) : List Char :=
  replGo D REL cs.length cs

theorem replGo_eq_of_le {D REL : List Char} : ∀ {f1 f2 : Nat} {cs : List Char},
    cs.length ≤ f1 → cs.length ≤ f2 → replGo D REL f1 cs = replGo D REL f2 cs := by
  intro f1
  induction f1 with
  | zero =>
    intro f2 cs h1 _
    have hnil : cs = [] := List.length_eq_zero.mp (Nat.le_zero.mp h1)
    subst hnil
    cases f2 <;> rfl
  | succ f ih =>
    intro f2 cs h1 h2
    cases cs with
    | nil => cases f2 <;> rfl
    | cons c t =>
      cases f2 with
      | zero => simp at h2
      | succ f2' =>
        simp only [List.length_cons] at h1 h2
        show replGo D REL (f + 1) (c :: t) = replGo D REL (f2' + 1) (c :: t)
        simp only [replGo]
        cases hm : matchSpecAt D (c :: t) with
        | some m =>
          obtain ⟨alt, rest⟩ := m
          have hlt := matchSpecAt_length_lt hm
          simp only [List.length_cons] at hlt
          show ('!' :: '[' :: alt) ++ (']' :: '(' :: REL) ++ (')' :: replGo D REL f rest) =
            ('!' :: '[' :: alt) ++ (']' :: '(' :: REL) ++ (')' :: replGo D REL f2' rest)
          rw [@ih f2' rest (by omega) (by omega)]
        | none =>
          show c :: replGo D REL f t = c :: replGo D REL f2' t
          rw [@ih f2' t (by omega) (by omega)]

theorem replaceAllAux_some {D REL cs alt rest}
    (hm : matchSpecAt D cs = some (alt, rest)) :
    replaceAllAux D REL cs =
      ('!' :: '[' :: alt) ++ (']' :: '(' :: REL) ++ (')' :: replaceAllAux D REL rest) := by
  have hlt := matchSpecAt_length_lt hm
  unfold replaceAllAux
  cases cs with
  | nil => exact absurd hm (by simp [matchSpecAt])
  | cons c t =>
    have hlt2 : rest.length ≤ t.length := by simp only [List.length_cons] at hlt; omega
    show replGo D REL (t.length + 1) (c :: t) = _
    simp only [replGo, hm]
    show ('!' :: '[' :: alt) ++ (']' :: '(' :: REL) ++ (')' :: replGo D REL t.length rest) = _
    rw [@replGo_eq_of_le D REL t.length rest.length rest hlt2 (le_refl _)]

theorem replaceAllAux_nil {D REL} : replaceAllAux D REL [] = [] := rfl

theorem replaceAllAux_none_cons {D REL c t} (hm : matchSpecAt D (c :: t) = none) :
    replaceAllAux D REL (c :: t) = c :: replaceAllAux D REL t := by
  unfold replaceAllAux
  show replGo D REL (t.length + 1) (c :: t) = _
  simp only [replGo, hm]

/-- String-level rewrite of every `![alt](D)` occurrence. -/
def replaceAllSpec (D REL content : String) : String :=
  (replaceAllAux D.data REL.data content.data).asString

/-- `updateFileReferences`: read the document, compute the relative path
from its directory to the new image (`filepath.Rel`, then `ToSlash`, the
identity on Unix), rewrite each reference's raw-path token, write back. -/
def updateFileReferences (o : IOOracle) (fs : FS) (filePath : String)
    (refs : List ImageReference) (newPath : String) : Except String FS :=
  if o.readFileFails filePath then .error "read"
  else
    match fsLookup fs filePath with
    | none => .error "read"
    | some f =>
      match relPath (dirPath filePath) newPath with
      | .error e => .error e
      | .ok rel =>
        let newContent := refs.foldl (fun c r => replaceAllSpec r.ImagePath rel c) f.content
        if o.writeFileFails filePath then .error "write"
        else .ok (fsWrite fs filePath newContent)

/-- Group references by owning file, preserving first-appearance order.
The Go code stores the groups in a map and iterates it in unspecified
order; the per-file updates touch disjoint files, so any order yields the
same final state and count, and the model fixes first-appearance order. -/
def groupByFile (refs : List ImageReference) : List (String × List ImageReference) :=
  refs.foldl (fun acc r =>
    if acc.any (fun pr => pr.1 == r.FilePath) then
      acc.map (fun pr => if pr.1 == r.FilePath then (pr.1, pr.2 ++ [r]) else pr)
    else acc ++ [(r.FilePath, [r])]) []

/-- `updateImageReferences`: rescan all references, keep those resolving
to `oldPath`, rewrite each owning document, skipping documents whose
update fails.  The Go function's error result comes only from
`findAllImageReferences`, which never fails, so the model returns the
count and the new state directly. -/
def uirStep (o : IOOracle) (newPath : String) (acc : Nat × FS)
    (pr : String × List ImageReference) : Nat × FS :=
  match updateFileReferences o acc.2 pr.1 pr.2 newPath with
  | .error _ => acc
  | .ok fs2 => (acc.1 + pr.2.length, fs2)

def updateImageReferences (o : IOOracle) (fs : FS) (notesDir journalDir : String)
    (oldPath newPath : String) : Nat × FS :=
  let references := findAllImageReferences o fs notesDir journalDir
  let matching := references.filter (fun r =>
    normalizeImagePath r.ImagePath (dirPath r.FilePath) == oldPath)
  (groupByFile matching).foldl (uirStep o newPath) (0, fs)

/-! ## `hashFile`, deduplication maps and `CleanImages` -/

/-- `hashFile`: open and hash the file's content; fails when the file is
absent or the oracle blocks the open/read. -/
def hashFile (hashFn : String → String) (o : IOOracle) (fs : FS) (p : String) :
    Except String String :=
  if o.hashOpenFails p then .error "open"
  else
    match fsLookup fs p with
    | none => .error "open"
    | some f => .ok (hashFn f.content)

/-- Does `q` hash (successfully) to the digest `hv`?  Used to express
"the first path in inventory order with this digest". -/
def hashIs (hashFn : String → String) (o : IOOracle) (fs : FS)
    (hv : String) (q : String) : Bool :=
  match hashFile hashFn o fs q with
  | .ok h => h == hv
  | .error _ => false

/-- Cleanup statistics.  `BytesFreed` is an `int64` in Go; the sums here
stay far below `2^63`, so it is modelled as `Nat`. -/
structure CleanupStats where
  UnusedImagesDeleted : Nat
  DuplicateImagesDeleted : Nat
  ReferencesUpdated : Nat
  BytesFreed : Nat
deriving DecidableEq, Repr

/-- The all-zero statistics. -/
def zeroStats : CleanupStats := ⟨0, 0, 0, 0⟩

/-- The hash-to-first-path map and duplicate plan built in Step 5 of
`CleanImages`: first occurrence of a digest is canonical, later
occurrences are scheduled duplicates; files that fail to hash are
skipped. -/
structure DedupMaps where
  hashToPath : List (String × String)
  duplicates : List (String × String)
deriving DecidableEq, Repr

/-- Association-list lookup standing in for Go's `map[string]string`. -/
def assocFind? (l : List (String × String)) (k : String) : Option String :=
  (l.find? (fun pr => pr.1 == k)).map (fun pr => pr.2)

/-- One image of the Step-5 loop: a failed hash is skipped, a known
digest schedules a duplicate, a fresh digest records its first path. -/
def hashStep (hashFn : String → String) (o : IOOracle) (fs : FS)
    (m : DedupMaps) (p : String) : DedupMaps :=
  match hashFile hashFn o fs p with
  | .error _ => m
  | .ok h =>
    match assocFind? m.hashToPath h with
    | some canon => { m with duplicates := m.duplicates ++ [(p, canon)] }
    | none => { m with hashToPath := m.hashToPath ++ [(h, p)] }

/-- Build the dedup maps over the remaining images, in inventory order. -/
def buildHashMaps (hashFn : String → String) (o : IOOracle) (fs : FS)
    (remaining : List String) : DedupMaps :=
  remaining.foldl (hashStep hashFn o fs) ⟨[], []⟩

/-- Step 4 of `CleanImages`: delete every unreferenced image.  The stat
size is added to `BytesFreed` *before* the removal is attempted, and the
deletion counter is incremented only when the removal succeeds. -/
def delStep (o : IOOracle) (referencedImages : List String)
    (acc : CleanupStats × FS) (p : String) : CleanupStats × FS :=
  if referencedImages.contains p then acc
  else
    let s := match statSize o acc.2 p with
      | some n => { acc.1 with BytesFreed := acc.1.BytesFreed + n }
      | none => acc.1
    if (fsLookup acc.2 p).isSome && !o.removeFails p then
      ({ s with UnusedImagesDeleted := s.UnusedImagesDeleted + 1 }, fsRemove acc.2 p)
    else (s, acc.2)

def deleteUnreferenced (o : IOOracle) (imageFiles : List String)
    (referencedImages : List String) (acc : CleanupStats × FS) : CleanupStats × FS :=
  imageFiles.foldl (delStep o referencedImages) acc

/-- Step 6 of `CleanImages`: for each scheduled duplicate, rewrite the
references to it, then stat (for byte accounting) and remove the
duplicate file.  The Go code skips a duplicate when
`updateImageReferences` returns an error, but that function never does;
the removal happens whether or not individual document rewrites
failed. -/
def dupStep (o : IOOracle) (notesDir journalDir : String)
    (acc : CleanupStats × FS) (dc : String × String) : CleanupStats × FS :=
  let u := updateImageReferences o acc.2 notesDir journalDir dc.1 dc.2
  let s1 := { acc.1 with ReferencesUpdated := acc.1.ReferencesUpdated + u.1 }
  let s2 := match statSize o u.2 dc.1 with
    | some n => { s1 with BytesFreed := s1.BytesFreed + n }
    | none => s1
  if (fsLookup u.2 dc.1).isSome && !o.removeFails dc.1 then
    ({ s2 with DuplicateImagesDeleted := s2.DuplicateImagesDeleted + 1 },
     fsRemove u.2 dc.1)
  else (s2, u.2)

def processDuplicates (o : IOOracle) (notesDir journalDir : String)
    (dups : List (String × String)) (acc : CleanupStats × FS) : CleanupStats × FS :=
  dups.foldl (dupStep o notesDir journalDir) acc

/-- `CleanImages`.  The early `return` branches for walk errors are
unreachable (the walk callbacks swallow every error), so the function
always produces `.ok`; the `Except` type mirrors the Go signature. -/
def CleanImages (hashFn : String → String) (o : IOOracle)
    (notesDir journalDir : String) (fs : FS) : Except String (CleanupStats × FS) :=
  let imageFiles := findAllImages fs notesDir journalDir
  let references := findAllImageReferences o fs notesDir journalDir
  let referencedImages := references.map (fun r =>
    normalizeImagePath r.ImagePath (dirPath r.FilePath))
  let s4 := deleteUnreferenced o imageFiles referencedImages (zeroStats, fs)
  let remainingImages := findAllImages s4.2 notesDir journalDir
  let maps := buildHashMaps hashFn o s4.2 remainingImages
  .ok (processDuplicates o notesDir journalDir maps.duplicates s4)

/-! ## The directory-tree walk

`filepath.Walk` recurses through the real directory structure, sorting the
entry names of each directory (`readDirNames` ends with `sort.Strings`).
`walkTree` reproduces that recursion; the agreement with the flat
`walkFiles` model is proved below. -/

/-- A directory entry: a regular file with content, or a subdirectory. -/
inductive FTree where
  | file (name : String) (content : String)
  | dir (name : String) (children : List FTree)
deriving Repr

/-- The entry name. -/
def FTree.name : FTree → String
  | .file n _ => n
  | .dir n _ => n

/-- Sort sibling entries by name, as `readDirNames` does. -/
def sortByName (cs : List FTree) : List FTree :=
  cs.insertionSort (fun a b => (charsLt a.name.data b.name.data || a.name == b.name) = true)

mutual

/-- Structural size of a directory entry. -/
def FTree.size : FTree → Nat
  | .file _ _ => 1
  | .dir _ cs => 1 + FTree.sizeList cs

/-- Structural size of a list of entries. -/
def FTree.sizeList : List FTree → Nat
  | [] => 0
  | t :: ts => FTree.size t + FTree.sizeList ts

end

/-- Fuelled walk; `t.size` fuel always suffices. -/
def walkGo : Nat → String → FTree → List FSFile
  | 0, _, _ => []
  | _ + 1, parent, .file n c => [⟨parent ++ "/" ++ n, c⟩]
  | fuel + 1, parent, .dir n cs =>
    (sortByName cs).flatMap (fun c => walkGo fuel (parent ++ "/" ++ n) c)

/-- The regular files below an entry whose parent directory is `parent`,
in the order `filepath.Walk` visits them. -/
def walkTree (parent : String) (t : FTree) : List FSFile :=
  walkGo t.size parent t

theorem FTree.size_pos : ∀ t : FTree, 0 < t.size
  | .file _ _ => by rw [FTree.size]; omega
  | .dir _ _ => by rw [FTree.size]; omega

theorem FTree.size_le_sizeList {t : FTree} : ∀ {ts : List FTree}, t ∈ ts →
    t.size ≤ FTree.sizeList ts := by
  intro ts hmem
  induction ts with
  | nil => cases hmem
  | cons s ss ih =>
    rw [FTree.sizeList]
    rcases List.mem_cons.mp hmem with rfl | hmem2
    · omega
    · have := ih hmem2; omega

theorem walkGo_eq_of_le : ∀ {f1 f2 : Nat} {parent : String} {t : FTree},
    t.size ≤ f1 → t.size ≤ f2 → walkGo f1 parent t = walkGo f2 parent t := by
  intro f1
  induction f1 with
  | zero =>
    intro f2 parent t h1 _
    exact absurd h1 (by have := FTree.size_pos t; omega)
  | succ f ih =>
    intro f2 parent t h1 h2
    cases f2 with
    | zero => exact absurd h2 (by have := FTree.size_pos t; omega)
    | succ f2' =>
      cases t with
      | file n c => rfl
      | dir n cs =>
        show walkGo (f + 1) parent (.dir n cs) = walkGo (f2' + 1) parent (.dir n cs)
        simp only [walkGo]
        refine List.flatMap_congr ?_ -- pointwise equality of the child walks
        intro c hc
        have hmem : c ∈ cs := by
          unfold sortByName at hc
          rwa [(List.perm_insertionSort _ _).mem_iff] at hc
        have hle := FTree.size_le_sizeList hmem
        rw [FTree.size] at h1 h2
        exact ih (by omega) (by omega)

theorem walkTree_file {parent n c} :
    walkTree parent (.file n c) = [⟨parent ++ "/" ++ n, c⟩] := rfl

theorem walkTree_dir {parent n cs} :
    walkTree parent (.dir n cs) =
      (sortByName cs).flatMap (fun c => walkTree (parent ++ "/" ++ n) c) := by
  unfold walkTree
  rw [show (FTree.dir n cs).size = FTree.sizeList cs + 1 from by rw [FTree.size]; omega]
  simp only [walkGo]
  refine List.flatMap_congr ?_
  intro c hc
  have hmem : c ∈ cs := by
    unfold sortByName at hc
    rwa [(List.perm_insertionSort _ _).mem_iff] at hc
  exact walkGo_eq_of_le (FTree.size_le_sizeList hmem) (le_refl _)

/-- `filepath.Walk root` over the directory with path `root` whose
entries are `cs`. -/
def walkRoot (root : String) (cs : List FTree) : List FSFile :=
  (sortByName cs).flatMap (fun c => walkTree root c)

/-- No name occurs twice. -/
def allDistinct : List String → Bool
  | [] => true
  | n :: t => !(t.contains n) && allDistinct t

mutual

/-- Well-formed directory entry: its name is slash-free, and sibling
names inside every directory are distinct (true of any real directory
tree). -/
def FTree.wfT : FTree → Bool
  | .file n _ => !(n.data.contains '/')
  | .dir n cs =>
    !(n.data.contains '/') && allDistinct (cs.map FTree.name) && FTree.wfL cs

/-- Well-formed list of entries. -/
def FTree.wfL : List FTree → Bool
  | [] => true
  | c :: cs => FTree.wfT c && FTree.wfL cs

end

/-! ## The clipboard image inserter (`SaveClipboardImage`)

From the clipboard handler (`internal/utils`): the clipboard bytes are
decoded (`image.Decode`), re-encoded to PNG (`png.Encode`), hashed
(SHA-256), and stored under `<baseName>-<first 12 hex digits>.png`; if a
file of that name already exists it is trusted to hold the same content
and nothing is written.  Decoding, PNG encoding and hashing are abstract
parameters (`decodeImg`, `pngEncode`, `shaHex`); `png.Encode` into a
memory buffer and `MkdirAll`/`Create`/`Write` are modelled as succeeding,
and the clipboard read is the `data` argument. -/

def SaveClipboardImage (decodeImg : String → Option String)
    (pngEncode : String → String) (shaHex : String → String)
    (fsI : FS) (data imgsDir baseName : String) : Except String (String × FS) :=
  if data = "" then .error "no image data in clipboard"
  else
    match decodeImg data with
    | none => .error "failed to decode clipboard image"
    | some img =>
      let imageBytes := pngEncode img
      let hashString := shaHex imageBytes
      let filename := baseName ++ "-" ++ (hashString.data.take 12).asString ++ ".png"
      let imagePath := joinPath imgsDir filename
      if (fsLookup fsI imagePath).isSome then .ok (filename, fsI)
      else .ok (filename, fsWrite fsI imagePath imageBytes)

/-! ## Tame documents

The idempotence and rewrite-preservation arguments need documents whose
markers are well separated: the delimiter characters may appear only as
the delimiters of a complete marker, and every `![` begins a complete
marker on its line.  `tameLineAux` checks one line structurally. -/

/-- A character that is not part of the marker delimiter set. -/
def tameChar (c : Char) : Bool :=
  !(c = '!' || c = '[' || c = ']' || c = '(' || c = ')')

/-- A delimiter-free character list. -/
def tameStrL (cs : List Char) : Bool := cs.all tameChar

/-- Fuelled tameness check; `cs.length` fuel always suffices. -/
def tameGo : Nat → List Char → Bool
  | 0, _ => true
  | _ + 1, [] => true
  | fuel + 1, c :: t =>
    match matchImageAt (c :: t) with
    | some m => tameStrL m.1 && tameStrL m.2.1 && tameGo fuel m.2.2
    | none => if c = '!' ∧ t.head? = some '[' then false else tameGo fuel t

/-- A line is tame when scanning it only meets complete markers with
delimiter-free alt text and raw path, and every `![` starts a marker. -/
def tameLineAux (cs : List Char) : Bool :=
  tameGo cs.length cs

theorem tameGo_eq_of_le : ∀ {f1 f2 : Nat} {cs : List Char},
    cs.length ≤ f1 → cs.length ≤ f2 → tameGo f1 cs = tameGo f2 cs := by
  intro f1
  induction f1 with
  | zero =>
    intro f2 cs h1 _
    have hnil : cs = [] := List.length_eq_zero.mp (Nat.le_zero.mp h1)
    subst hnil
    cases f2 <;> rfl
  | succ f ih =>
    intro f2 cs h1 h2
    cases cs with
    | nil => cases f2 <;> rfl
    | cons c t =>
      cases f2 with
      | zero => simp at h2
      | succ f2' =>
        simp only [List.length_cons] at h1 h2
        show tameGo (f + 1) (c :: t) = tameGo (f2' + 1) (c :: t)
        simp only [tameGo]
        cases hm : matchImageAt (c :: t) with
        | some m =>
          obtain ⟨a, p, rest⟩ := m
          have hlt := matchImageAt_length_lt hm
          simp only [List.length_cons] at hlt
          show (tameStrL a && tameStrL p && tameGo f rest) =
            (tameStrL a && tameStrL p && tameGo f2' rest)
          rw [@ih f2' rest (by omega) (by omega)]
        | none =>
          show (if c = '!' ∧ t.head? = some '[' then false else tameGo f t) =
            (if c = '!' ∧ t.head? = some '[' then false else tameGo f2' t)
          rw [@ih f2' t (by omega) (by omega)]

theorem tameLineAux_some {cs a p rest} (hm : matchImageAt cs = some (a, p, rest)) :
    tameLineAux cs = (tameStrL a && tameStrL p && tameLineAux rest) := by
  have hlt := matchImageAt_length_lt hm
  unfold tameLineAux
  cases cs with
  | nil => exact absurd hm (by simp [matchImageAt])
  | cons c t =>
    have hlt2 : rest.length ≤ t.length := by simp only [List.length_cons] at hlt; omega
    show tameGo (t.length + 1) (c :: t) = _
    simp only [tameGo, hm]
    show (tameStrL a && tameStrL p && tameGo t.length rest) = _
    rw [@tameGo_eq_of_le t.length rest.length rest hlt2 (le_refl _)]

theorem tameLineAux_nil : tameLineAux [] = true := rfl

theorem tameLineAux_none_cons {c t} (hm : matchImageAt (c :: t) = none) :
    tameLineAux (c :: t) =
      (if c = '!' ∧ t.head? = some '[' then false else tameLineAux t) := by
  unfold tameLineAux
  show tameGo (t.length + 1) (c :: t) = _
  simp only [tameGo, hm]

/-- A document all of whose lines are tame. -/
def tameDoc (content : String) : Bool :=
  (docLines content).all (fun l => tameLineAux l.data)

/-! ## Concrete states used as evidence -/

/-- A note holding exactly the marker the editor's paste operation
inserts (`![Pasted image](<relativePath>)`), together with the pasted
attachment it refers to. -/
def pasteFS : FS :=
  [⟨"/n/pasted.md", "![Pasted image](<.attachments/imgs/image-ab12cd34ef56.png>)"⟩,
   ⟨"/n/.attachments/imgs/image-ab12cd34ef56.png", "PNG"⟩]

/-- Two identical attachments, both referenced from one document. -/
def dupFS : FS :=
  [⟨"/n/doc.md", "![x](.attachments/a.png)\n![y](.attachments/b.png)"⟩,
   ⟨"/n/.attachments/a.png", "IMG"⟩,
   ⟨"/n/.attachments/b.png", "IMG"⟩]

/-- An oracle under which writing `/n/doc.md` back fails and everything
else succeeds. -/
def writeFailOracle : IOOracle :=
  { idealIO with writeFileFails := fun p => p == "/n/doc.md" }

/-- A single unreferenced attachment of five bytes. -/
def orphanFS : FS := [⟨"/n/.attachments/orphan.png", "12345"⟩]

/-- An oracle under which removing the orphan fails and everything else
succeeds. -/
def removeFailOracle : IOOracle :=
  { idealIO with removeFails := fun p => p == "/n/.attachments/orphan.png" }

/-- A notes directory tree holding two attachments with equal content. -/
def c7TreeN : List FTree :=
  [FTree.dir ".attachments" [FTree.file "a.png" "IMG", FTree.file "b.png" "IMG"]]

/-- The flat state produced by walking `c7TreeN` at `/n` (the journal
tree is empty). -/
def c7FS : FS := walkRoot "/n" c7TreeN ++ walkRoot "/j" []

/-- The attachment inventory of `c7FS`. -/
def c7Rem : List String := findAllImages c7FS "/n" "/j"

/-- Step 4 of `CleanImages` as a single function of the input state, for
stating the pipeline in stages. -/
def step4 (o : IOOracle) (nd jd : String) (fs : FS) : CleanupStats × FS :=
  deleteUnreferenced o (findAllImages fs nd jd)
    ((findAllImageReferences o fs nd jd).map (fun r =>
      normalizeImagePath r.ImagePath (dirPath r.FilePath))) (zeroStats, fs)

/-- A document referencing two attachments with different contents. -/
def c4FS : FS :=
  [⟨"/n/doc.md", "![x](.attachments/a.png)\n![y](.attachments/b.png)"⟩,
   ⟨"/n/.attachments/a.png", "A"⟩,
   ⟨"/n/.attachments/b.png", "B"⟩]

/-- The file paths name pairwise distinct files. -/
def nodupPaths (fs : FS) : Prop := (fs.map FSFile.path).Nodup

/-- A state whose third document line is a marker whose raw path itself
contains the text of a complete duplicate marker: the line scans as one
reference with raw path `y ![z](.attachments/b.png`, which resolves to
the file of that name. -/
def c3FS : FS :=
  [⟨"/n/doc.md",
    "![x](.attachments/a.png)\n![y](.attachments/b.png)\n![q](y ![z](.attachments/b.png) t"⟩,
   ⟨"/n/.attachments/a.png", "IMG"⟩,
   ⟨"/n/.attachments/b.png", "IMG"⟩,
   ⟨"/n/y ![z](.attachments/b.png", "WEIRD"⟩]

/-- `c3FS`'s document after the first cleanup run: the rewrite of the
duplicate raw path `.attachments/b.png` also fired inside the third
line's raw path, corrupting that reference. -/
def c3Doc2 : String :=
  "![x](.attachments/a.png)\n![y](.attachments/a.png)\n![q](y ![z](.attachments/a.png) t"

/-- The state after the first cleanup run on `c3FS`. -/
def c3FS2 : FS :=
  [⟨"/n/doc.md", c3Doc2⟩,
   ⟨"/n/.attachments/a.png", "IMG"⟩,
   ⟨"/n/y ![z](.attachments/b.png", "WEIRD"⟩]

end Notetkr

namespace Notetkr

/-! # Theorems

One theorem per claim, with shared helper lemmas.  Helper lemmas carry
ordinary names; each claim's theorem is marked by its claim id in the doc
comment. -/

/-- Membership in a walk is membership in the file system below the
root; the sort only rearranges. -/
theorem mem_walkFiles {fs : FS} {root : String} {f : FSFile} :
    f ∈ walkFiles fs root ↔ f ∈ fs ∧ isUnder root f.path = true := by
  unfold walkFiles
  rw [(List.perm_insertionSort _ _).mem_iff, List.mem_filter]

/-- C5: the scanner does recognise the editor-pasted angle-bracket marker
and emits the raw path with the brackets included, but
`normalizeImagePath` keeps the brackets as literal path characters, so
the resolved path differs from the on-disk attachment path; consequently
a cleanup run deletes the pasted attachment while its reference remains
in the document. -/
theorem pasted_reference_resolution_mismatch :
    findAllImageReferences idealIO pasteFS "/n" "/j" =
      [⟨"/n/pasted.md", 1, "<.attachments/imgs/image-ab12cd34ef56.png>"⟩] ∧
    normalizeImagePath "<.attachments/imgs/image-ab12cd34ef56.png>"
        (dirPath "/n/pasted.md") =
      "/n/<.attachments/imgs/image-ab12cd34ef56.png>" ∧
    normalizeImagePath "<.attachments/imgs/image-ab12cd34ef56.png>"
        (dirPath "/n/pasted.md") ≠
      "/n/.attachments/imgs/image-ab12cd34ef56.png" ∧
    CleanImages id idealIO "/n" "/j" pasteFS =
      .ok (⟨1, 0, 0, 3⟩,
        [⟨"/n/pasted.md",
          "![Pasted image](<.attachments/imgs/image-ab12cd34ef56.png>)"⟩]) := by
  refine ⟨by decide, by decide, by decide, ?_⟩
  rfl

/-- C8: `CleanImages` always returns a statistics result with a nil
error, for every file-system state and every combination of per-file
transient I/O failures; its error branches are unreachable because the
walk callbacks swallow every error. -/
theorem cleanImages_always_ok (hashFn : String → String) (o : IOOracle)
    (notesDir journalDir : String) (fs : FS) :
    ∃ r, CleanImages hashFn o notesDir journalDir fs = .ok r :=
  ⟨_, rfl⟩

/-- C1 counterexample: with two content-identical attachments referenced
from one document whose write-back fails, the cleanup run still deletes
the duplicate `/n/.attachments/b.png` (DuplicateImagesDeleted = 1) and
leaves the document still referencing it — the duplicate is not
retained, contradicting the claim. -/
theorem duplicate_deleted_despite_failed_rewrite :
    CleanImages id writeFailOracle "/n" "/j" dupFS =
      .ok (⟨0, 1, 0, 3⟩,
        [⟨"/n/doc.md", "![x](.attachments/a.png)\n![y](.attachments/b.png)"⟩,
         ⟨"/n/.attachments/a.png", "IMG"⟩]) ∧
    writeFailOracle.writeFileFails "/n/doc.md" = true ∧
    (∃ r ∈ findAllImageReferences writeFailOracle dupFS "/n" "/j",
      normalizeImagePath r.ImagePath (dirPath r.FilePath) = "/n/.attachments/b.png") := by
  refine ⟨by rfl, by decide, ⟨⟨"/n/doc.md", 2, ".attachments/b.png"⟩, by decide, by decide⟩⟩

/-- C2 counterexample: a five-byte unreferenced attachment whose
`os.Remove` fails still contributes its full size to `BytesFreed`
(the stat size is accumulated before the removal is attempted), while no
deletion completes at all — `BytesFreed = 5` where the claim demands
`0`. -/
theorem bytesFreed_counted_despite_failed_remove :
    CleanImages id removeFailOracle "/n" "/j" orphanFS =
      .ok (⟨0, 0, 0, 5⟩, [⟨"/n/.attachments/orphan.png", "12345"⟩]) := by
  rfl

theorem filterMap_guard_map {α β : Type} (l : List α) (h : α → β) (c : β → Bool) :
    l.filterMap (fun a => if c (h a) then some (h a) else none) = (l.map h).filter c := by
  induction l with
  | nil => rfl
  | cons a t ih =>
    cases hch : c (h a) <;>
      simp [List.filterMap_cons, List.filter_cons, hch, ih]

theorem flatMap_enum_snd {α β : Type} (l : List α) (g : α → List β) :
    l.enum.flatMap (fun li => g li.2) = l.flatMap g := by
  conv_rhs => rw [← List.enum_map_snd l]
  rw [List.flatMap_map]

/-- C10: inventory membership is decided by the `.attachments` substring
test plus the extension allow-list, not by directory structure, and a
scanned marker is tracked exactly when its raw path contains
`.attachments`; in particular `notes/report.attachments.png` — a file
outside any attachments directory — passes the inventory test. -/
theorem attachments_membership_by_substring :
    (∀ (fs : FS) (notesDir journalDir p : String),
      p ∈ findAllImages fs notesDir journalDir ↔
        (∃ f ∈ fs, f.path = p ∧ (isUnder notesDir p || isUnder journalDir p) = true) ∧
          strContains p ".attachments" = true ∧
          imageExts.contains (toLowerStr (extOf p)) = true) ∧
    (∀ f : FSFile, (refsOfDoc f).map ImageReference.ImagePath =
        ((docLines f.content).flatMap (fun l => (scanLine l).map Prod.snd)).filter
          (fun r => strContains r ".attachments")) ∧
    isImagePath "notes/report.attachments.png" = true := by
  refine ⟨?_, ?_, by decide⟩
  · intro fs notesDir journalDir p
    unfold findAllImages
    simp only [List.mem_filterMap, List.mem_append, mem_walkFiles]
    constructor
    · rintro ⟨f, hf, hsome⟩
      have himg : isImagePath f.path = true ∧ f.path = p := by
        by_cases hc : isImagePath f.path = true
        · simp only [hc, if_true, Option.some.injEq] at hsome
          exact ⟨hc, hsome⟩
        · simp only [Bool.not_eq_true] at hc
          simp [hc] at hsome
      obtain ⟨himg, rfl⟩ := himg
      unfold isImagePath at himg
      rw [Bool.and_eq_true] at himg
      rcases hf with ⟨hfs, hu⟩ | ⟨hfs, hu⟩
      · exact ⟨⟨f, hfs, rfl, by simp [hu]⟩, himg.1, himg.2⟩
      · exact ⟨⟨f, hfs, rfl, by simp [hu]⟩, himg.1, himg.2⟩
    · rintro ⟨⟨f, hfs, rfl, hu⟩, hc, he⟩
      refine ⟨f, ?_, ?_⟩
      · rw [Bool.or_eq_true] at hu
        rcases hu with hu | hu
        · exact Or.inl ⟨hfs, hu⟩
        · exact Or.inr ⟨hfs, hu⟩
      · have : isImagePath f.path = true := by
          unfold isImagePath
          rw [Bool.and_eq_true]
          exact ⟨hc, he⟩
        simp [this]
  · intro f
    unfold refsOfDoc
    rw [List.map_flatMap]
    have hinner : ∀ li : Nat × String,
        ((scanLine li.2).filterMap (fun m =>
          if strContains m.2 ".attachments" = true then
            some (⟨f.path, li.1 + 1, m.2⟩ : ImageReference)
          else none)).map ImageReference.ImagePath =
        ((scanLine li.2).map Prod.snd).filter (fun r => strContains r ".attachments") := by
      intro li
      rw [List.map_filterMap, ← filterMap_guard_map (scanLine li.2) Prod.snd]
      refine List.filterMap_congr ?_
      intro m _
      split <;> rfl
    calc (docLines f.content).enum.flatMap (fun li =>
            ((scanLine li.2).filterMap (fun m =>
              if strContains m.2 ".attachments" = true then
                some (⟨f.path, li.1 + 1, m.2⟩ : ImageReference)
              else none)).map ImageReference.ImagePath)
        = (docLines f.content).enum.flatMap (fun li =>
            ((scanLine li.2).map Prod.snd).filter
              (fun r => strContains r ".attachments")) := by
          exact List.flatMap_congr (fun li _ => hinner li)
      _ = (docLines f.content).flatMap (fun l =>
            ((scanLine l).map Prod.snd).filter
              (fun r => strContains r ".attachments")) :=
          flatMap_enum_snd (docLines f.content)
            (fun l => ((scanLine l).map Prod.snd).filter
              (fun r => strContains r ".attachments"))
      _ = ((docLines f.content).flatMap (fun l => (scanLine l).map Prod.snd)).filter
            (fun r => strContains r ".attachments") := by
          rw [List.filter_flatMap]

/-! ### File-system lemmas -/

theorem fsLookup_nil {p : String} : fsLookup [] p = none := rfl

theorem fsLookup_cons {f : FSFile} {t : FS} {p : String} :
    fsLookup (f :: t) p = if f.path = p then some f else fsLookup t p := by
  unfold fsLookup
  by_cases h : f.path = p
  · rw [List.find?_cons_of_pos _ (by simp [h]), if_pos h]
  · rw [List.find?_cons_of_neg _ (by simp [h]), if_neg h]

theorem fsLookup_path {fs : FS} {p : String} {f : FSFile}
    (h : fsLookup fs p = some f) : f.path = p := by
  unfold fsLookup at h
  have hb := @List.find?_some FSFile (fun g => g.path == p) f fs h
  exact eq_of_beq hb

theorem fsLookup_map_upd (fs : FS) (p c q : String) :
    fsLookup (fs.map (fun f => if f.path == p then { f with content := c } else f)) q
      = (fsLookup fs q).map
          (fun f => if f.path == p then { f with content := c } else f) := by
  induction fs with
  | nil => rfl
  | cons f t ih =>
    rw [List.map_cons, fsLookup_cons, fsLookup_cons]
    have hupd : ((if (f.path == p) = true then { f with content := c } else f) : FSFile).path
        = f.path := by
      split <;> rfl
    by_cases hfq : f.path = q
    · rw [if_pos (hupd.trans hfq), if_pos hfq]
      rfl
    · rw [if_neg (fun hx => hfq (hupd.symm.trans hx)), if_neg hfq]
      exact ih

theorem fsLookup_fsWrite_self (fs : FS) (p c : String) :
    fsLookup (fsWrite fs p c) p = some ⟨p, c⟩ := by
  unfold fsWrite
  split
  case isTrue h =>
    rw [fsLookup_map_upd]
    cases hl : fsLookup fs p with
    | none => rw [hl] at h; simp at h
    | some f =>
      have hfp := fsLookup_path hl
      rw [Option.map_some']
      have : ((if (f.path == p) = true then { f with content := c } else f) : FSFile)
          = ⟨p, c⟩ := by
        rw [if_pos (beq_iff_eq.mpr hfp)]
        cases f
        simp_all
      rw [this]
  case isFalse h =>
    unfold fsLookup at *
    rw [List.find?_append]
    have hnone : List.find? (fun f => f.path == p) fs = none := by
      cases hl : List.find? (fun f => f.path == p) fs with
      | none => rfl
      | some f => rw [hl] at h; simp at h
    rw [hnone, Option.none_or]
    rw [List.find?_cons_of_pos _ (by simp)]

theorem fsLookup_fsWrite_ne (fs : FS) (p c q : String) (h : q ≠ p) :
    fsLookup (fsWrite fs p c) q = fsLookup fs q := by
  unfold fsWrite
  split
  case isTrue _ =>
    rw [fsLookup_map_upd]
    cases hl : fsLookup fs q with
    | none => rfl
    | some f =>
      have hfq := fsLookup_path hl
      have hne : ¬((f.path == p) = true) := by
        rw [beq_iff_eq, hfq]
        exact h
      rw [Option.map_some', if_neg hne]
  case isFalse _ =>
    unfold fsLookup
    rw [List.find?_append]
    cases hl : List.find? (fun f => f.path == q) fs with
    | some f => rfl
    | none =>
      rw [Option.none_or]
      rw [List.find?_cons_of_neg _ (by simp; exact fun hx => h hx.symm)]
      rfl

theorem fsLookup_fsRemove_self (fs : FS) (p : String) :
    fsLookup (fsRemove fs p) p = none := by
  unfold fsLookup fsRemove
  rw [List.find?_eq_none]
  intro f hf
  have := List.of_mem_filter hf
  simp only [bne_iff_ne, ne_eq] at this
  simp [this]

theorem fsLookup_fsRemove_ne (fs : FS) (p q : String) (h : q ≠ p) :
    fsLookup (fsRemove fs p) q = fsLookup fs q := by
  induction fs with
  | nil => rfl
  | cons f t ih =>
    show fsLookup (List.filter _ (f :: t)) q = _
    rw [List.filter_cons]
    by_cases hfp : f.path = p
    · have hcond : (f.path != p) = false := by simp [bne_iff_ne]; exact hfp
      rw [hcond]
      simp only [Bool.false_eq_true, if_false]
      rw [fsLookup_cons, if_neg (fun hq => h (by rw [← hq]; exact hfp))]
      exact ih
    · have hcond : (f.path != p) = true := by simp [bne_iff_ne]; exact hfp
      rw [hcond]
      simp only [if_true]
      rw [fsLookup_cons, fsLookup_cons]
      by_cases hfq : f.path = q
      · rw [if_pos hfq, if_pos hfq]
      · rw [if_neg hfq, if_neg hfq]
        exact ih

/-- C6: insertion is content-deduplicating.  Two saves whose clipboard
bytes decode to the same image return the same filename; the second save
performs no write (the state is unchanged); only the one constructed path
is ever affected; and when a file of the constructed name already exists,
its name is returned without writing. -/
theorem saveClipboardImage_content_dedup
    (decodeImg : String → Option String) (pngEncode shaHex : String → String)
    (fsI : FS) (d1 d2 imgsDir baseName img : String)
    (h1 : d1 ≠ "") (h2 : d2 ≠ "")
    (hd1 : decodeImg d1 = some img) (hd2 : decodeImg d2 = some img) :
    ∃ fname fs1,
      SaveClipboardImage decodeImg pngEncode shaHex fsI d1 imgsDir baseName =
        .ok (fname, fs1) ∧
      SaveClipboardImage decodeImg pngEncode shaHex fs1 d2 imgsDir baseName =
        .ok (fname, fs1) ∧
      (fsLookup fs1 (joinPath imgsDir fname)).isSome = true ∧
      (∀ q, q ≠ joinPath imgsDir fname → fsLookup fs1 q = fsLookup fsI q) ∧
      ((fsLookup fsI (joinPath imgsDir fname)).isSome = true → fs1 = fsI) ∧
      (fsLookup fsI (joinPath imgsDir fname) = none →
        fsLookup fs1 (joinPath imgsDir fname) =
          some ⟨joinPath imgsDir fname, pngEncode img⟩) := by
  have heval : ∀ (fsX : FS) (d : String), d ≠ "" → decodeImg d = some img →
      SaveClipboardImage decodeImg pngEncode shaHex fsX d imgsDir baseName =
        (if (fsLookup fsX (joinPath imgsDir (baseName ++ "-" ++
              ((shaHex (pngEncode img)).data.take 12).asString ++ ".png"))).isSome then
          .ok (baseName ++ "-" ++ ((shaHex (pngEncode img)).data.take 12).asString ++ ".png",
               fsX)
        else
          .ok (baseName ++ "-" ++ ((shaHex (pngEncode img)).data.take 12).asString ++ ".png",
               fsWrite fsX (joinPath imgsDir (baseName ++ "-" ++
                 ((shaHex (pngEncode img)).data.take 12).asString ++ ".png"))
                 (pngEncode img))) := by
    intro fsX d hne hd
    unfold SaveClipboardImage
    rw [if_neg hne, hd]
  have hfname : ∃ fname : String,
      fname = baseName ++ "-" ++ ((shaHex (pngEncode img)).data.take 12).asString ++ ".png" :=
    ⟨_, rfl⟩
  obtain ⟨fname, hfn⟩ := hfname
  by_cases hex : (fsLookup fsI (joinPath imgsDir fname)).isSome = true
  · refine ⟨fname, fsI, ?_, ?_, hex, fun q _ => rfl, fun _ => rfl, ?_⟩
    · rw [heval fsI d1 h1 hd1, ← hfn, if_pos hex]
    · rw [heval fsI d2 h2 hd2, ← hfn, if_pos hex]
    · intro hnone
      rw [hnone] at hex
      simp at hex
  · refine ⟨fname, fsWrite fsI (joinPath imgsDir fname) (pngEncode img), ?_, ?_, ?_, ?_, ?_, ?_⟩
    · rw [heval fsI d1 h1 hd1, ← hfn, if_neg hex]
    · rw [heval _ d2 h2 hd2, ← hfn]
      rw [if_pos (by rw [fsLookup_fsWrite_self]; rfl)]
    · rw [fsLookup_fsWrite_self]
      rfl
    · intro q hq
      exact fsLookup_fsWrite_ne fsI _ (pngEncode img) q hq
    · intro hcontra
      exact absurd hcontra hex
    · intro _
      exact fsLookup_fsWrite_self fsI _ (pngEncode img)

/-- Witness for C6 at a concrete decoder, encoder, digest and state. -/
theorem saveClipboardImage_content_dedup_witness :
    ("AA" : String) ≠ "" ∧ ("BB" : String) ≠ "" ∧
    (fun _ : String => some "I") "AA" = some "I" ∧
    (fun _ : String => some "I") "BB" = some "I" ∧
    (∃ fname fs1,
      SaveClipboardImage (fun _ => some "I") (fun s => s) (fun s => s ++ s)
          ([] : FS) "AA" "/n/.attachments/imgs" "image" = .ok (fname, fs1) ∧
      SaveClipboardImage (fun _ => some "I") (fun s => s) (fun s => s ++ s)
          fs1 "BB" "/n/.attachments/imgs" "image" = .ok (fname, fs1) ∧
      (fsLookup fs1 (joinPath "/n/.attachments/imgs" fname)).isSome = true ∧
      (∀ q, q ≠ joinPath "/n/.attachments/imgs" fname →
        fsLookup fs1 q = fsLookup ([] : FS) q) ∧
      ((fsLookup ([] : FS) (joinPath "/n/.attachments/imgs" fname)).isSome = true →
        fs1 = ([] : FS)) ∧
      (fsLookup ([] : FS) (joinPath "/n/.attachments/imgs" fname) = none →
        fsLookup fs1 (joinPath "/n/.attachments/imgs" fname) =
          some ⟨joinPath "/n/.attachments/imgs" fname, "I"⟩)) :=
  ⟨by decide, by decide, rfl, rfl,
   saveClipboardImage_content_dedup (fun _ => some "I") (fun s => s) (fun s => s ++ s)
     ([] : FS) "AA" "BB" "/n/.attachments/imgs" "image" "I"
     (by decide) (by decide) rfl rfl⟩

/-! ### Frame lemmas for `CleanImages` (shared by several claims) -/

theorem isImagePath_of_mem_findAllImages {fs : FS} {a b p : String}
    (h : p ∈ findAllImages fs a b) : isImagePath p = true := by
  unfold findAllImages at h
  rw [List.mem_filterMap] at h
  obtain ⟨f, _, hsome⟩ := h
  by_cases hc : isImagePath f.path = true
  · rw [if_pos hc, Option.some.injEq] at hsome
    rwa [← hsome]
  · rw [if_neg hc] at hsome
    cases hsome

theorem md_not_image {p : String} (h : hasSuffixStr p ".md" = true) :
    isImagePath p = false := by
  unfold hasSuffixStr at h
  rw [List.isSuffixOf_iff_suffix] at h
  obtain ⟨x, hx⟩ := h
  have hext : extOf p = ".md" := by
    unfold extOf
    rw [show p.data = x ++ ('.' :: 'm' :: 'd' :: []) from hx.symm]
    rw [List.reverse_append]
    have hrev : ('.' :: 'm' :: 'd' :: ([] : List Char)).reverse = 'd' :: 'm' :: '.' :: [] := rfl
    rw [hrev, List.cons_append, List.cons_append, List.cons_append, List.nil_append]
    rw [List.takeWhile_cons_of_pos (by decide), List.takeWhile_cons_of_pos (by decide),
      List.takeWhile_cons_of_pos (by decide)]
    rw [if_pos (by
      show ('d' :: 'm' :: '.' :: List.takeWhile _ x.reverse).contains '.' = true
      simp [List.contains_cons])]
    rw [List.takeWhile_cons_of_pos (by decide), List.takeWhile_cons_of_pos (by decide),
      List.takeWhile_cons_of_neg (by decide)]
    rfl
  unfold isImagePath
  rw [hext]
  rw [show toLowerStr ".md" = ".md" from rfl]
  rw [show imageExts.contains ".md" = false from rfl]
  exact Bool.and_false _

theorem ufr_preserves_exists {o : IOOracle} {fs : FS} {filePath : String}
    {refs : List ImageReference} {newPath : String} {fs2 : FS}
    (h : updateFileReferences o fs filePath refs newPath = .ok fs2) :
    ∀ p, (fsLookup fs2 p).isSome = (fsLookup fs p).isSome := by
  unfold updateFileReferences at h
  split at h
  · cases h
  · split at h
    · cases h
    · rename_i f hf
      split at h
      · cases h
      · split at h
        · cases h
        · rw [Except.ok.injEq] at h
          subst h
          intro p
          unfold fsWrite
          rw [if_pos (by rw [hf]; rfl)]
          rw [fsLookup_map_upd]
          cases fsLookup fs p <;> rfl

theorem uirStep_preserves_exists (o : IOOracle) (newPath : String)
    (acc : Nat × FS) (pr : String × List ImageReference) :
    ∀ p, (fsLookup (uirStep o newPath acc pr).2 p).isSome = (fsLookup acc.2 p).isSome := by
  intro p
  unfold uirStep
  cases hu : updateFileReferences o acc.2 pr.1 pr.2 newPath with
  | error e => rfl
  | ok fs2 => exact ufr_preserves_exists hu p

theorem uir_preserves_exists (o : IOOracle) (fs : FS) (notesDir journalDir oldP newP : String) :
    ∀ p, (fsLookup (updateImageReferences o fs notesDir journalDir oldP newP).2 p).isSome
        = (fsLookup fs p).isSome := by
  intro p
  have main : ∀ (L : List (String × List ImageReference)) (acc : Nat × FS),
      (fsLookup (L.foldl (uirStep o newP) acc).2 p).isSome = (fsLookup acc.2 p).isSome := by
    intro L
    induction L with
    | nil => intro acc; rfl
    | cons pr t ih =>
      intro acc
      rw [List.foldl_cons, ih (uirStep o newP acc pr)]
      exact uirStep_preserves_exists o newP acc pr p
  exact main _ (0, fs)

theorem delStep_frame (o : IOOracle) (referenced : List String)
    (acc : CleanupStats × FS) (p q : String) :
    ((fsLookup (delStep o referenced acc p).2 q).isSome = true →
      (fsLookup acc.2 q).isSome = true) ∧
    ((fsLookup acc.2 q).isSome = true →
      (fsLookup (delStep o referenced acc p).2 q).isSome = false → q = p) := by
  have hid : ∀ fsv : FS, (fsLookup fsv q).isSome = (fsLookup fsv q).isSome →
      ((fsLookup fsv q).isSome = true → (fsLookup fsv q).isSome = true) ∧
      ((fsLookup fsv q).isSome = true → (fsLookup fsv q).isSome = false → q = p) :=
    fun fsv _ => ⟨fun h => h, (fun h1 h2 => by rw [h1] at h2; cases h2)⟩
  unfold delStep
  by_cases hc : referenced.contains p
  · rw [if_pos hc]
    exact hid acc.2 rfl
  · rw [if_neg hc]
    dsimp only
    by_cases hrem : ((fsLookup acc.2 p).isSome && !o.removeFails p) = true
    · rw [if_pos hrem]
      show ((fsLookup (fsRemove acc.2 p) q).isSome = true → _) ∧
        (_ → (fsLookup (fsRemove acc.2 p) q).isSome = false → _)
      by_cases hpq : q = p
      · subst hpq
        rw [fsLookup_fsRemove_self]
        exact ⟨(fun h => by cases h), fun _ _ => rfl⟩
      · rw [fsLookup_fsRemove_ne _ _ _ hpq]
        exact hid acc.2 rfl
    · rw [if_neg hrem]
      exact hid acc.2 rfl

theorem dupStep_frame (o : IOOracle) (notesDir journalDir : String)
    (acc : CleanupStats × FS) (dc : String × String) (q : String) :
    ((fsLookup (dupStep o notesDir journalDir acc dc).2 q).isSome = true →
      (fsLookup acc.2 q).isSome = true) ∧
    ((fsLookup acc.2 q).isSome = true →
      (fsLookup (dupStep o notesDir journalDir acc dc).2 q).isSome = false → q = dc.1) := by
  have hu := uir_preserves_exists o acc.2 notesDir journalDir dc.1 dc.2 q
  unfold dupStep
  dsimp only
  by_cases hrem : ((fsLookup (updateImageReferences o acc.2 notesDir journalDir
      dc.1 dc.2).2 dc.1).isSome && !o.removeFails dc.1) = true
  · rw [if_pos hrem]
    show ((fsLookup (fsRemove (updateImageReferences o acc.2 notesDir journalDir
        dc.1 dc.2).2 dc.1) q).isSome = true → _) ∧
      (_ → (fsLookup (fsRemove (updateImageReferences o acc.2 notesDir journalDir
        dc.1 dc.2).2 dc.1) q).isSome = false → _)
    by_cases hpq : q = dc.1
    · subst hpq
      rw [fsLookup_fsRemove_self]
      exact ⟨(fun h => by cases h), fun _ _ => rfl⟩
    · rw [fsLookup_fsRemove_ne _ _ _ hpq, hu]
      exact ⟨fun h => h, (fun h1 h2 => by rw [h1] at h2; cases h2)⟩
  · rw [if_neg hrem]
    show ((fsLookup (updateImageReferences o acc.2 notesDir journalDir
        dc.1 dc.2).2 q).isSome = true → _) ∧
      (_ → (fsLookup (updateImageReferences o acc.2 notesDir journalDir
        dc.1 dc.2).2 q).isSome = false → _)
    rw [hu]
    exact ⟨fun h => h, (fun h1 h2 => by rw [h1] at h2; cases h2)⟩

theorem foldl_frame {β : Type} (step : (CleanupStats × FS) → β → CleanupStats × FS)
    (key : β → String)
    (hstep : ∀ acc b q,
      ((fsLookup (step acc b).2 q).isSome = true → (fsLookup acc.2 q).isSome = true) ∧
      ((fsLookup acc.2 q).isSome = true → (fsLookup (step acc b).2 q).isSome = false →
        q = key b)) :
    ∀ (L : List β) (acc : CleanupStats × FS) (q : String),
      ((fsLookup (L.foldl step acc).2 q).isSome = true →
        (fsLookup acc.2 q).isSome = true) ∧
      ((fsLookup acc.2 q).isSome = true →
        (fsLookup (L.foldl step acc).2 q).isSome = false → q ∈ L.map key) := by
  intro L
  induction L with
  | nil =>
    intro acc q
    rw [List.foldl_nil]
    exact ⟨fun h => h, (fun h1 h2 => by rw [h1] at h2; cases h2)⟩
  | cons b t ih =>
    intro acc q
    rw [List.foldl_cons]
    constructor
    · intro h
      exact (hstep acc b q).1 ((ih (step acc b) q).1 h)
    · intro h1 h2
      cases hm : (fsLookup (step acc b).2 q).isSome with
      | true =>
        exact List.mem_cons_of_mem _ ((ih (step acc b) q).2 hm h2)
      | false =>
        rw [List.map_cons]
        exact ((hstep acc b q).2 h1 hm) ▸ List.mem_cons_self _ _

theorem hashStep_dup_mem {hashFn : String → String} {o : IOOracle} {fs : FS}
    {m : DedupMaps} {p : String} {dc : String × String}
    (h : dc ∈ (hashStep hashFn o fs m p).duplicates) :
    dc ∈ m.duplicates ∨ dc.1 = p := by
  unfold hashStep at h
  split at h
  · exact Or.inl h
  · split at h
    · simp only [List.mem_append, List.mem_singleton] at h
      rcases h with h | h
      · exact Or.inl h
      · exact Or.inr (by rw [h])
    · exact Or.inl h

theorem buildHashMaps_dup_mem {hashFn : String → String} {o : IOOracle} {fs : FS}
    {rem : List String} {dc : String × String}
    (h : dc ∈ (buildHashMaps hashFn o fs rem).duplicates) : dc.1 ∈ rem := by
  unfold buildHashMaps at h
  have main : ∀ (rem : List String) (acc : DedupMaps),
      dc ∈ (rem.foldl (hashStep hashFn o fs) acc).duplicates →
      dc ∈ acc.duplicates ∨ dc.1 ∈ rem := by
    intro rem
    induction rem with
    | nil => intro acc hh; exact Or.inl hh
    | cons q t ih =>
      intro acc hh
      rw [List.foldl_cons] at hh
      rcases ih (hashStep hashFn o fs acc q) hh with h2 | h2
      · rcases hashStep_dup_mem h2 with h3 | h3
        · exact Or.inl h3
        · exact Or.inr (by rw [h3]; exact List.mem_cons_self _ _)
      · exact Or.inr (List.mem_cons_of_mem _ h2)
  rcases main rem ⟨[], []⟩ h with h2 | h2
  · cases h2
  · exact h2

/-- C9: a cleanup run never deletes or creates a document.  Every path
that disappears during a run satisfies the inventory shape (contains
`.attachments` and has an allow-listed image extension), no path is
created, and consequently the set of `.md` document paths on disk is
identical before and after (their content may be rewritten in place). -/
theorem cleanup_never_touches_documents
    (hashFn : String → String) (o : IOOracle) (notesDir journalDir : String)
    (fs : FS) (r : CleanupStats × FS)
    (h : CleanImages hashFn o notesDir journalDir fs = .ok r) :
    (∀ p, (fsLookup fs p).isSome = true → (fsLookup r.2 p).isSome = false →
      isImagePath p = true) ∧
    (∀ p, (fsLookup r.2 p).isSome = true → (fsLookup fs p).isSome = true) ∧
    (∀ p, hasSuffixStr p ".md" = true →
      (fsLookup r.2 p).isSome = (fsLookup fs p).isSome) := by
  have hr : r = processDuplicates o notesDir journalDir
      (buildHashMaps hashFn o
        (deleteUnreferenced o (findAllImages fs notesDir journalDir)
          ((findAllImageReferences o fs notesDir journalDir).map (fun rr =>
            normalizeImagePath rr.ImagePath (dirPath rr.FilePath))) (zeroStats, fs)).2
        (findAllImages
          (deleteUnreferenced o (findAllImages fs notesDir journalDir)
            ((findAllImageReferences o fs notesDir journalDir).map (fun rr =>
              normalizeImagePath rr.ImagePath (dirPath rr.FilePath))) (zeroStats, fs)).2
          notesDir journalDir)).duplicates
      (deleteUnreferenced o (findAllImages fs notesDir journalDir)
        ((findAllImageReferences o fs notesDir journalDir).map (fun rr =>
          normalizeImagePath rr.ImagePath (dirPath rr.FilePath))) (zeroStats, fs)) := by
    unfold CleanImages at h
    rw [Except.ok.injEq] at h
    exact h.symm
  subst hr
  set refd := (findAllImageReferences o fs notesDir journalDir).map (fun rr =>
    normalizeImagePath rr.ImagePath (dirPath rr.FilePath)) with hrefd
  set s4 := deleteUnreferenced o (findAllImages fs notesDir journalDir) refd
    (zeroStats, fs) with hs4
  set dups := (buildHashMaps hashFn o s4.2
    (findAllImages s4.2 notesDir journalDir)).duplicates with hdups
  have F4 := foldl_frame (delStep o refd) (fun p => p)
    (fun acc b q => delStep_frame o refd acc b q)
    (findAllImages fs notesDir journalDir) (zeroStats, fs)
  have F6 := foldl_frame (dupStep o notesDir journalDir) Prod.fst
    (fun acc b q => dupStep_frame o notesDir journalDir acc b q)
    dups s4
  have himgdel : ∀ p, (fsLookup fs p).isSome = true →
      (fsLookup (processDuplicates o notesDir journalDir dups s4).2 p).isSome = false →
      isImagePath p = true := by
    intro p hfs hgone
    cases hm : (fsLookup s4.2 p).isSome with
    | false =>
      have hmem := (F4 p).2 hfs hm
      have hmem2 : p ∈ findAllImages fs notesDir journalDir := by simpa using hmem
      exact isImagePath_of_mem_findAllImages hmem2
    | true =>
      have hmem := (F6 p).2 hm hgone
      rw [List.mem_map] at hmem
      obtain ⟨dc, hdc, rfl⟩ := hmem
      have hrem := @buildHashMaps_dup_mem hashFn o s4.2 (findAllImages s4.2 notesDir journalDir) dc hdc
      exact isImagePath_of_mem_findAllImages hrem
  have hnocreate : ∀ p,
      (fsLookup (processDuplicates o notesDir journalDir dups s4).2 p).isSome = true →
      (fsLookup fs p).isSome = true := by
    intro p hp
    exact (F4 p).1 ((F6 p).1 hp)
  refine ⟨himgdel, hnocreate, ?_⟩
  intro p hmd
  cases hfs : (fsLookup fs p).isSome with
  | false =>
    cases hres : (fsLookup (processDuplicates o notesDir journalDir dups s4).2 p).isSome with
    | false => rfl
    | true => rw [hnocreate p hres] at hfs; cases hfs
  | true =>
    cases hres : (fsLookup (processDuplicates o notesDir journalDir dups s4).2 p).isSome with
    | true => rfl
    | false =>
      have := himgdel p hfs hres
      rw [md_not_image hmd] at this
      cases this

/-- Witness for C9: the frame property at a concrete run. -/
theorem cleanup_never_touches_documents_witness :
    (∀ p, (fsLookup dupFS p).isSome = true →
      (fsLookup ((⟨0, 1, 1, 3⟩,
        [⟨"/n/doc.md", "![x](.attachments/a.png)\n![y](.attachments/a.png)"⟩,
         ⟨"/n/.attachments/a.png", "IMG"⟩]) : CleanupStats × FS).2 p).isSome = false →
      isImagePath p = true) ∧
    (∀ p, (fsLookup ((⟨0, 1, 1, 3⟩,
        [⟨"/n/doc.md", "![x](.attachments/a.png)\n![y](.attachments/a.png)"⟩,
         ⟨"/n/.attachments/a.png", "IMG"⟩]) : CleanupStats × FS).2 p).isSome = true →
      (fsLookup dupFS p).isSome = true) ∧
    (∀ p, hasSuffixStr p ".md" = true →
      (fsLookup ((⟨0, 1, 1, 3⟩,
        [⟨"/n/doc.md", "![x](.attachments/a.png)\n![y](.attachments/a.png)"⟩,
         ⟨"/n/.attachments/a.png", "IMG"⟩]) : CleanupStats × FS).2 p).isSome
        = (fsLookup dupFS p).isSome) :=
  cleanup_never_touches_documents id idealIO "/n" "/j" dupFS
    (⟨0, 1, 1, 3⟩,
     [⟨"/n/doc.md", "![x](.attachments/a.png)\n![y](.attachments/a.png)"⟩,
      ⟨"/n/.attachments/a.png", "IMG"⟩]) rfl

/-! ### Order theory for the walk order (claim C7) -/

theorem charsLt_irrefl : ∀ a : List Char, charsLt a a = false := by
  intro a
  induction a with
  | nil => rfl
  | cons c t ih =>
    unfold charsLt
    rw [if_pos rfl]
    exact ih

theorem charsLt_trans : ∀ {a b c : List Char},
    charsLt a b = true → charsLt b c = true → charsLt a c = true := by
  intro a
  induction a with
  | nil =>
    intro b c hab hbc
    cases b with
    | nil => cases hab
    | cons bh bt =>
      cases c with
      | nil => cases hbc
      | cons ch ct => rfl
  | cons ah at2 ih =>
    intro b c hab hbc
    cases b with
    | nil => cases hab
    | cons bh bt =>
      cases c with
      | nil => cases hbc
      | cons ch ct =>
        unfold charsLt at hab hbc ⊢
        by_cases h1 : ah = bh
        · rw [if_pos h1] at hab
          by_cases h2 : bh = ch
          · rw [if_pos h2] at hbc
            rw [if_pos (h1.trans h2)]
            exact ih hab hbc
          · rw [if_neg h2] at hbc
            rw [if_neg (h1 ▸ h2), h1]
            exact hbc
        · rw [if_neg h1] at hab
          by_cases h2 : bh = ch
          · rw [if_neg (h2 ▸ h1), ← h2]
            exact hab
          · rw [if_neg h2] at hbc
            have hlt : ah < ch := lt_trans (of_decide_eq_true hab) (of_decide_eq_true hbc)
            have hne2 : ah ≠ ch := by
              intro he
              rw [he] at hlt
              exact lt_irrefl ch hlt
            rw [if_neg hne2, decide_eq_true hlt]

theorem charsLt_connex : ∀ {a b : List Char}, a ≠ b →
    charsLt a b = true ∨ charsLt b a = true := by
  intro a
  induction a with
  | nil =>
    intro b hne
    cases b with
    | nil => exact absurd rfl hne
    | cons bh bt => exact Or.inl rfl
  | cons ah at2 ih =>
    intro b hne
    cases b with
    | nil => exact Or.inr rfl
    | cons bh bt =>
      unfold charsLt
      by_cases h1 : ah = bh
      · subst h1
        have hne2 : at2 ≠ bt := fun he => hne (by rw [he])
        rw [if_pos rfl, if_pos rfl]
        exact ih hne2
      · rw [if_neg h1, if_neg (fun he => h1 he.symm)]
        rcases lt_or_gt_of_ne h1 with hlt | hlt
        · exact Or.inl (decide_eq_true hlt)
        · exact Or.inr (decide_eq_true hlt)

theorem compLex_refl : ∀ a : List (List Char), compLex a a = true := by
  intro a
  induction a with
  | nil => rfl
  | cons c t ih =>
    unfold compLex
    rw [if_pos rfl]
    exact ih

theorem compLex_total : ∀ a b : List (List Char),
    compLex a b = true ∨ compLex b a = true := by
  intro a
  induction a with
  | nil => intro b; exact Or.inl rfl
  | cons ah at2 ih =>
    intro b
    cases b with
    | nil => exact Or.inr rfl
    | cons bh bt =>
      unfold compLex
      by_cases h1 : ah = bh
      · rw [if_pos h1, if_pos h1.symm]
        exact ih bt
      · rw [if_neg h1, if_neg (fun he => h1 he.symm)]
        exact charsLt_connex h1
  termination_by a => a

theorem charsLt_ne {a b : List Char} (h : charsLt a b = true) : a ≠ b := by
  intro he
  subst he
  rw [charsLt_irrefl] at h
  cases h

theorem compLex_trans : ∀ {a b c : List (List Char)},
    compLex a b = true → compLex b c = true → compLex a c = true := by
  intro a
  induction a with
  | nil => intro b c _ _; rfl
  | cons ah at2 ih =>
    intro b c hab hbc
    cases b with
    | nil => cases hab
    | cons bh bt =>
      cases c with
      | nil => cases hbc
      | cons ch ct =>
        unfold compLex at hab hbc ⊢
        by_cases h1 : ah = bh
        · rw [if_pos h1] at hab
          by_cases h2 : bh = ch
          · rw [if_pos h2] at hbc
            rw [if_pos (h1.trans h2)]
            exact ih hab hbc
          · rw [if_neg h2] at hbc
            rw [if_neg (h1 ▸ h2), h1]
            exact hbc
        · rw [if_neg h1] at hab
          by_cases h2 : bh = ch
          · rw [if_neg (h2 ▸ h1), ← h2]
            exact hab
          · rw [if_neg h2] at hbc
            have hlt : charsLt ah ch = true := charsLt_trans hab hbc
            have hne : ah ≠ ch := by
              intro he
              subst he
              have := charsLt_trans hab hbc
              rw [charsLt_irrefl] at this
              cases this
            rw [if_neg hne]
            exact hlt

theorem compLex_cons (a b : List Char) (as bs : List (List Char)) :
    compLex (a :: as) (b :: bs) = if a = b then compLex as bs else charsLt a b := rfl

theorem compLex_append_left : ∀ (x u v : List (List Char)),
    compLex (x ++ u) (x ++ v) = compLex u v := by
  intro x
  induction x with
  | nil => intro u v; rfl
  | cons xh xt ih =>
    intro u v
    rw [List.cons_append, List.cons_append, compLex_cons, if_pos rfl]
    exact ih u v

/-! ### Walk shape and sortedness (claim C7) -/

theorem splitChar_cons (sep c : Char) (t : List Char) :
    splitChar sep (c :: t) =
      if c = sep then [] :: splitChar sep t
      else
        match splitChar sep t with
        | h :: r => (c :: h) :: r
        | [] => [[c]] := rfl

theorem splitChar_ne_nil (sep : Char) : ∀ l : List Char, splitChar sep l ≠ [] := by
  intro l
  cases l with
  | nil => exact fun h => by cases h
  | cons c t =>
    rw [splitChar_cons]
    by_cases h : c = sep
    · rw [if_pos h]
      exact fun h2 => by cases h2
    · rw [if_neg h]
      cases splitChar sep t with
      | nil => exact fun h2 => by cases h2
      | cons h2 r => exact fun h3 => by cases h3

theorem splitChar_nosep (sep : Char) :
    ∀ l : List Char, l.contains sep = false → splitChar sep l = [l] := by
  intro l
  induction l with
  | nil => intro _; rfl
  | cons c t ih =>
    intro h
    have hc : ¬(c = sep) := by
      intro he
      subst he
      simp [List.contains_cons] at h
    have ht : t.contains sep = false := by
      simp [List.contains_cons] at h
      simp [h.2]
    rw [splitChar_cons, if_neg hc, ih ht]

theorem splitSlash_append_name (y : List Char) (hy : y.contains '/' = false) :
    ∀ x : List Char, splitSlash (x ++ '/' :: y) = splitSlash x ++ [y] := by
  intro x
  induction x with
  | nil =>
    show splitChar '/' ('/' :: y) = splitChar '/' [] ++ [y]
    rw [splitChar_cons, if_pos rfl, splitChar_nosep _ y hy]
    rfl
  | cons c t ih =>
    show splitChar '/' (c :: (t ++ '/' :: y)) = splitChar '/' (c :: t) ++ [y]
    rw [splitChar_cons, splitChar_cons]
    by_cases hc : c = '/'
    · rw [if_pos hc, if_pos hc]
      rw [show splitChar '/' (t ++ '/' :: y) = splitSlash (t ++ '/' :: y) from rfl, ih]
      rfl
    · rw [if_neg hc, if_neg hc]
      have hne := splitChar_ne_nil '/' t
      cases hsp : splitChar '/' t with
      | nil => exact absurd hsp hne
      | cons h r =>
        rw [show splitChar '/' (t ++ '/' :: y) = splitSlash (t ++ '/' :: y) from rfl, ih]
        rw [show splitSlash t = splitChar '/' t from rfl, hsp]
        rfl

theorem wfL_mem {cs : List FTree} {c : FTree} (hwf : FTree.wfL cs = true)
    (hmem : c ∈ cs) : FTree.wfT c = true := by
  induction cs with
  | nil => cases hmem
  | cons d t ih =>
    rw [FTree.wfL, Bool.and_eq_true] at hwf
    rcases List.mem_cons.mp hmem with rfl | hmem2
    · exact hwf.1
    · exact ih hwf.2 hmem2

theorem walkTree_shape : ∀ (n : Nat) (t : FTree), t.size ≤ n →
    FTree.wfT t = true → ∀ (parent : String) (f : FSFile), f ∈ walkTree parent t →
    ∃ rest : List (List Char),
      splitSlash f.path.data = splitSlash parent.data ++ t.name.data :: rest := by
  intro n
  induction n with
  | zero =>
    intro t hsz
    exact absurd hsz (by have := FTree.size_pos t; omega)
  | succ m ih =>
    intro t hsz hwf parent f hmem
    cases t with
    | file nm c =>
      rw [walkTree_file, List.mem_singleton] at hmem
      subst hmem
      refine ⟨[], ?_⟩
      show splitSlash ((parent ++ "/" ++ nm) : String).data = _
      rw [show ((parent ++ "/" ++ nm) : String).data = parent.data ++ '/' :: nm.data by
        simp [String.data_append]]
      rw [FTree.wfT] at hwf
      rw [splitSlash_append_name nm.data (by revert hwf; cases nm.data.contains '/' <;> simp) parent.data]
      rfl
    | dir nm cs =>
      rw [walkTree_dir, List.mem_flatMap] at hmem
      obtain ⟨c, hc, hfc⟩ := hmem
      have hcmem : c ∈ cs := by
        unfold sortByName at hc
        rwa [(List.perm_insertionSort _ _).mem_iff] at hc
      rw [FTree.wfT, Bool.and_eq_true, Bool.and_eq_true] at hwf
      have hwc : FTree.wfT c = true := wfL_mem hwf.2 hcmem
      have hszc : c.size ≤ m := by
        have h1 := FTree.size_le_sizeList hcmem
        rw [FTree.size] at hsz
        omega
      obtain ⟨rest, hrest⟩ := ih c hszc hwc (parent ++ "/" ++ nm) f hfc
      rw [show ((parent ++ "/" ++ nm) : String).data = parent.data ++ '/' :: nm.data by
        simp [String.data_append]] at hrest
      rw [show splitSlash (parent.data ++ '/' :: nm.data)
          = splitSlash parent.data ++ [nm.data] from
        splitSlash_append_name nm.data
          (by revert hwf; cases nm.data.contains '/' <;> simp) parent.data] at hrest
      exact ⟨c.name.data :: rest, by rw [hrest, List.append_assoc]; rfl⟩

theorem allDistinct_pairwise : ∀ {l : List String}, allDistinct l = true →
    List.Pairwise (fun a b => a ≠ b) l := by
  intro l
  induction l with
  | nil => intro _; exact List.Pairwise.nil
  | cons n t ih =>
    intro h
    rw [allDistinct, Bool.and_eq_true] at h
    refine List.Pairwise.cons ?_ (ih h.2)
    intro m hm he
    have hmem2 : n ∈ t := he ▸ hm
    have hcont : t.contains n = true := List.elem_eq_true_of_mem hmem2
    rw [hcont] at h
    rcases h with ⟨h1, -⟩
    cases h1

theorem sortByName_pairwise_lt {cs : List FTree}
    (hdist : allDistinct (cs.map FTree.name) = true) :
    List.Pairwise (fun c d => charsLt c.name.data d.name.data = true) (sortByName cs) := by
  have hle : List.Pairwise
      (fun a b => (charsLt a.name.data b.name.data || a.name == b.name) = true)
      (sortByName cs) := by
    unfold sortByName
    refine @List.sorted_insertionSort FTree
      (fun a b => (charsLt a.name.data b.name.data || a.name == b.name) = true)
      (fun a b => instDecidableEqBool _ _) ⟨?_⟩ ⟨?_⟩ cs
    · intro a b
      by_cases he : a.name = b.name
      · exact Or.inl (by rw [Bool.or_eq_true, beq_iff_eq]; exact Or.inr he)
      · have hd : a.name.data ≠ b.name.data := fun hx => he (by
          cases hna : a.name
          cases hnb : b.name
          rw [hna, hnb] at hx
          simp at hx
          simp [hx])
        rcases charsLt_connex hd with hlt | hlt
        · exact Or.inl (by rw [Bool.or_eq_true]; exact Or.inl hlt)
        · exact Or.inr (by rw [Bool.or_eq_true]; exact Or.inl hlt)
    · intro a b c hab hbc
      rw [Bool.or_eq_true, beq_iff_eq] at hab hbc ⊢
      rcases hab with hab | hab <;> rcases hbc with hbc | hbc
      · exact Or.inl (charsLt_trans hab hbc)
      · exact Or.inl (hbc ▸ hab)
      · exact Or.inl (by rw [hab]; exact hbc)
      · exact Or.inr (hab.trans hbc)
  have hne : List.Pairwise (fun c d : FTree => c.name ≠ d.name) (sortByName cs) := by
    have h1 : List.Pairwise (fun a b : String => a ≠ b) (cs.map FTree.name) :=
      allDistinct_pairwise hdist
    have h2 : List.Pairwise (fun c d : FTree => c.name ≠ d.name) cs :=
      (List.pairwise_map).mp h1
    have hperm : List.Perm (sortByName cs) cs := List.perm_insertionSort _ cs
    exact (@List.Perm.pairwise_iff FTree (fun c d : FTree => c.name ≠ d.name)
      (fun hab he => hab he.symm) _ _ hperm).mpr h2
  have := hle.and hne
  refine this.imp ?_
  intro a b hab
  rcases hab with ⟨h1, h2⟩
  rw [Bool.or_eq_true, beq_iff_eq] at h1
  rcases h1 with h1 | h1
  · exact h1
  · exact absurd h1 h2

theorem walk_cross {c d : FTree} {parent : String}
    (hwc : FTree.wfT c = true) (hwd : FTree.wfT d = true)
    (hlt : charsLt c.name.data d.name.data = true) :
    ∀ f ∈ walkTree parent c, ∀ g ∈ walkTree parent d,
      pathLe f.path g.path = true ∧ f.path ≠ g.path := by
  intro f hf g hg
  obtain ⟨r1, h1⟩ := walkTree_shape c.size c (le_refl _) hwc parent f hf
  obtain ⟨r2, h2⟩ := walkTree_shape d.size d (le_refl _) hwd parent g hg
  have hne : c.name.data ≠ d.name.data := charsLt_ne hlt
  constructor
  · unfold pathLe
    rw [h1, h2, compLex_append_left, compLex_cons, if_neg hne]
    exact hlt
  · intro he
    have heq : splitSlash f.path.data = splitSlash g.path.data := by rw [he]
    rw [h1, h2] at heq
    have := List.append_cancel_left heq
    rw [List.cons.injEq] at this
    exact hne this.1

theorem walk_children_sorted_aux (m : Nat)
    (hpart1 : ∀ t : FTree, t.size ≤ m → ∀ parent, FTree.wfT t = true →
      List.Pairwise (fun f g => pathLe f.path g.path = true ∧ f.path ≠ g.path)
        (walkTree parent t))
    (cs : List FTree) (hsz : FTree.sizeList cs ≤ m) (parent : String)
    (hwf : FTree.wfL cs = true) (hdist : allDistinct (cs.map FTree.name) = true) :
    List.Pairwise (fun f g => pathLe f.path g.path = true ∧ f.path ≠ g.path)
      ((sortByName cs).flatMap (fun c => walkTree parent c)) := by
  rw [List.pairwise_flatMap]
  have hmemcs : ∀ {c : FTree}, c ∈ sortByName cs → c ∈ cs := by
    intro c hc
    unfold sortByName at hc
    rwa [(List.perm_insertionSort _ _).mem_iff] at hc
  constructor
  · intro c hc
    have hcm := hmemcs hc
    exact hpart1 c (le_trans (FTree.size_le_sizeList hcm) hsz) parent (wfL_mem hwf hcm)
  · refine (sortByName_pairwise_lt hdist).imp_of_mem ?_
    intro a b ha hb hab
    exact walk_cross (wfL_mem hwf (hmemcs ha)) (wfL_mem hwf (hmemcs hb)) hab

theorem walkTree_sorted : ∀ (n : Nat) (t : FTree), t.size ≤ n →
    ∀ parent, FTree.wfT t = true →
    List.Pairwise (fun f g => pathLe f.path g.path = true ∧ f.path ≠ g.path)
      (walkTree parent t) := by
  intro n
  induction n with
  | zero =>
    intro t hsz
    exact absurd hsz (by have := FTree.size_pos t; omega)
  | succ m ih =>
    intro t hsz parent hwf
    cases t with
    | file nm c =>
      rw [walkTree_file]
      exact List.pairwise_singleton _ _
    | dir nm cs =>
      rw [walkTree_dir]
      rw [FTree.wfT, Bool.and_eq_true, Bool.and_eq_true] at hwf
      refine walk_children_sorted_aux m ih cs ?_ (parent ++ "/" ++ nm) hwf.2 hwf.1.2
      rw [FTree.size] at hsz
      omega

theorem walkRoot_sorted (root : String) (cs : List FTree)
    (hwf : FTree.wfL cs = true) (hdist : allDistinct (cs.map FTree.name) = true) :
    List.Pairwise (fun f g => pathLe f.path g.path = true ∧ f.path ≠ g.path)
      (walkRoot root cs) :=
  walk_children_sorted_aux (FTree.sizeList cs)
    (fun t hsz parent hw => walkTree_sorted (FTree.sizeList cs) t hsz parent hw)
    cs (le_refl _) root hwf hdist

theorem walkTree_under : ∀ (n : Nat) (t : FTree), t.size ≤ n →
    ∀ (parent : String) (f : FSFile), f ∈ walkTree parent t →
    ∃ rest : List Char, f.path.data = parent.data ++ '/' :: rest := by
  intro n
  induction n with
  | zero =>
    intro t hsz
    exact absurd hsz (by have := FTree.size_pos t; omega)
  | succ m ih =>
    intro t hsz parent f hmem
    cases t with
    | file nm c =>
      rw [walkTree_file, List.mem_singleton] at hmem
      subst hmem
      exact ⟨nm.data, by simp [String.data_append]⟩
    | dir nm cs =>
      rw [walkTree_dir, List.mem_flatMap] at hmem
      obtain ⟨c, hc, hfc⟩ := hmem
      have hcmem : c ∈ cs := by
        unfold sortByName at hc
        rwa [(List.perm_insertionSort _ _).mem_iff] at hc
      have hszc : c.size ≤ m := by
        have h1 := FTree.size_le_sizeList hcmem
        rw [FTree.size] at hsz
        omega
      obtain ⟨rest, hrest⟩ := ih c hszc (parent ++ "/" ++ nm) f hfc
      refine ⟨nm.data ++ '/' :: rest, ?_⟩
      rw [hrest]
      simp [String.data_append]

theorem walkFiles_walkRoot (root : String) (cs : List FTree)
    (hwf : FTree.wfL cs = true) (hdist : allDistinct (cs.map FTree.name) = true) :
    walkFiles (walkRoot root cs) root = walkRoot root cs := by
  unfold walkFiles
  have hunder : ∀ f ∈ walkRoot root cs, isUnder root f.path = true := by
    intro f hf
    have hsh : ∃ rest : List Char, f.path.data = root.data ++ '/' :: rest := by
      unfold walkRoot at hf
      rw [List.mem_flatMap] at hf
      obtain ⟨c, hc, hfc⟩ := hf
      exact walkTree_under c.size c (le_refl _) root f hfc
    obtain ⟨rest, hrest⟩ := hsh
    unfold isUnder
    rw [List.isPrefixOf_iff_prefix, hrest]
    rw [show root.data ++ '/' :: rest = (root.data ++ ['/']) ++ rest by simp]
    exact List.prefix_append _ _
  rw [List.filter_eq_self.mpr (fun f hf => hunder f hf)]
  refine List.Sorted.insertionSort_eq ?_
  exact (walkRoot_sorted root cs hwf hdist).imp (fun hab => hab.1)

/-! ### Canonical selection is first-in-inventory (claim C7) -/

theorem assocFind?_cons (pr : String × String) (l : List (String × String)) (hv : String) :
    assocFind? (pr :: l) hv =
      if pr.1 = hv then some pr.2 else assocFind? l hv := by
  unfold assocFind?
  by_cases h : pr.1 = hv
  · rw [List.find?_cons_of_pos _ (by simp [h]), if_pos h]
    rfl
  · rw [List.find?_cons_of_neg _ (by simp [h]), if_neg h]

theorem assocFind?_append_one (l : List (String × String)) (k v hv : String) :
    assocFind? (l ++ [(k, v)]) hv =
      match assocFind? l hv with
      | some x => some x
      | none => if hv = k then some v else none := by
  induction l with
  | nil =>
    rw [List.nil_append, assocFind?_cons]
    show _ = if hv = k then some v else none
    by_cases h : k = hv
    · rw [if_pos h, if_pos h.symm]
    · rw [if_neg h, if_neg (fun hx => h hx.symm)]
      rfl
  | cons pr t ih =>
    rw [List.cons_append, assocFind?_cons, assocFind?_cons]
    by_cases h : pr.1 = hv
    · rw [if_pos h, if_pos h]
    · rw [if_neg h, if_neg h, ih]

theorem hashStep_error {hashFn : String → String} {o : IOOracle} {fs : FS}
    {m : DedupMaps} {p : String} {e : String}
    (hh : hashFile hashFn o fs p = .error e) : hashStep hashFn o fs m p = m := by
  unfold hashStep
  simp only [hh]

theorem hashStep_dup {hashFn : String → String} {o : IOOracle} {fs : FS}
    {m : DedupMaps} {p h0 canon : String}
    (hh : hashFile hashFn o fs p = .ok h0)
    (hf : assocFind? m.hashToPath h0 = some canon) :
    hashStep hashFn o fs m p = { m with duplicates := m.duplicates ++ [(p, canon)] } := by
  unfold hashStep
  simp only [hh, hf]

theorem hashStep_new {hashFn : String → String} {o : IOOracle} {fs : FS}
    {m : DedupMaps} {p h0 : String}
    (hh : hashFile hashFn o fs p = .ok h0)
    (hf : assocFind? m.hashToPath h0 = none) :
    hashStep hashFn o fs m p = { m with hashToPath := m.hashToPath ++ [(h0, p)] } := by
  unfold hashStep
  simp only [hh, hf]

theorem hashStep_hashToPath_mono {hashFn : String → String} {o : IOOracle} {fs : FS}
    {m : DedupMaps} {p hv x : String}
    (h : assocFind? m.hashToPath hv = some x) :
    assocFind? (hashStep hashFn o fs m p).hashToPath hv = some x := by
  cases hh : hashFile hashFn o fs p with
  | error e => rw [hashStep_error hh]; exact h
  | ok h0 =>
    cases hf : assocFind? m.hashToPath h0 with
    | some canon => rw [hashStep_dup hh hf]; exact h
    | none =>
      rw [hashStep_new hh hf]
      show assocFind? (m.hashToPath ++ [(h0, p)]) hv = some x
      rw [assocFind?_append_one, h]

theorem foldl_hashToPath_mono {hashFn : String → String} {o : IOOracle} {fs : FS} :
    ∀ {rem : List String} {m : DedupMaps} {hv x : String},
      assocFind? m.hashToPath hv = some x →
      assocFind? ((rem.foldl (hashStep hashFn o fs) m).hashToPath) hv = some x := by
  intro rem
  induction rem with
  | nil => intro m hv x h; exact h
  | cons q t ih =>
    intro m hv x h
    rw [List.foldl_cons]
    exact ih (hashStep_hashToPath_mono h)

theorem hashIs_error {hashFn : String → String} {o : IOOracle} {fs : FS}
    {q hv : String} {e : String} (hh : hashFile hashFn o fs q = .error e) :
    hashIs hashFn o fs hv q = false := by
  unfold hashIs
  rw [hh]

theorem hashIs_ok {hashFn : String → String} {o : IOOracle} {fs : FS}
    {q hv h0 : String} (hh : hashFile hashFn o fs q = .ok h0) :
    hashIs hashFn o fs hv q = (h0 == hv) := by
  unfold hashIs
  rw [hh]

theorem foldl_hashToPath_first {hashFn : String → String} {o : IOOracle} {fs : FS} :
    ∀ (rem : List String) (m : DedupMaps) (hv pth : String),
      assocFind? ((rem.foldl (hashStep hashFn o fs) m).hashToPath) hv = some pth ↔
        (assocFind? m.hashToPath hv = some pth ∨
          (assocFind? m.hashToPath hv = none ∧
            rem.find? (hashIs hashFn o fs hv) = some pth)) := by
  intro rem
  induction rem with
  | nil =>
    intro m hv pth
    rw [List.foldl_nil, List.find?_nil]
    constructor
    · intro h
      exact Or.inl h
    · intro h
      rcases h with h | ⟨-, h⟩
      · exact h
      · cases h
  | cons q t ih =>
    intro m hv pth
    rw [List.foldl_cons]
    cases hh : hashFile hashFn o fs q with
    | error e =>
      rw [hashStep_error hh, ih]
      rw [List.find?_cons_of_neg _ (by rw [hashIs_error hh]; simp)]
    | ok h0 =>
      cases hf : assocFind? m.hashToPath h0 with
      | some canon =>
        rw [hashStep_dup hh hf, ih]
        by_cases hvh : hv = h0
        · subst hvh
          rw [List.find?_cons_of_pos _ (by rw [hashIs_ok hh]; simp)]
          constructor
          · intro h2
            rcases h2 with h2 | ⟨h2, -⟩
            · exact Or.inl h2
            · rw [h2] at hf; exact absurd hf (by simp)
          · intro h2
            rcases h2 with h2 | ⟨h2, -⟩
            · exact Or.inl h2
            · rw [h2] at hf; exact absurd hf (by simp)
        · rw [List.find?_cons_of_neg _ (by
            rw [hashIs_ok hh]
            exact fun hb => hvh (eq_of_beq hb).symm)]
      | none =>
        rw [hashStep_new hh hf, ih]
        show (assocFind? (m.hashToPath ++ [(h0, q)]) hv = some pth ∨
          (assocFind? (m.hashToPath ++ [(h0, q)]) hv = none ∧ _)) ↔ _
        rw [assocFind?_append_one]
        by_cases hvh : hv = h0
        · subst hvh
          rw [List.find?_cons_of_pos _ (by rw [hashIs_ok hh]; simp)]
          simp only [hf, if_true]
          constructor
          · intro h2
            rcases h2 with h2 | ⟨h2, -⟩
            · exact Or.inr ⟨trivial, h2⟩
            · exact absurd h2 (by simp)
          · intro h2
            rcases h2 with h2 | ⟨-, h2⟩
            · exact absurd h2 (by simp)
            · exact Or.inl h2
        · rw [List.find?_cons_of_neg _ (by
            rw [hashIs_ok hh]
            exact fun hb => hvh (eq_of_beq hb).symm)]
          cases hfv : assocFind? m.hashToPath hv with
          | some x =>
            simp [hfv]
          | none =>
            simp [hfv, hvh]

theorem buildHashMaps_canonical {hashFn : String → String} {o : IOOracle} {fs : FS} :
    ∀ (rem : List String) (m : DedupMaps) (dc : String × String),
      dc ∈ (rem.foldl (hashStep hashFn o fs) m).duplicates →
      dc ∈ m.duplicates ∨
        ∃ hv, hashFile hashFn o fs dc.1 = .ok hv ∧
          assocFind? ((rem.foldl (hashStep hashFn o fs) m).hashToPath) hv = some dc.2 := by
  intro rem
  induction rem with
  | nil =>
    intro m dc h
    exact Or.inl h
  | cons q t ih =>
    intro m dc h
    rw [List.foldl_cons] at h ⊢
    cases hh : hashFile hashFn o fs q with
    | error e =>
      rw [hashStep_error hh] at h ⊢
      exact ih m dc h
    | ok h0 =>
      cases hf : assocFind? m.hashToPath h0 with
      | some canon =>
        rw [hashStep_dup hh hf] at h ⊢
        rcases ih _ dc h with h2 | h2
        · rw [List.mem_append, List.mem_singleton] at h2
          rcases h2 with h2 | h2
          · exact Or.inl h2
          · subst h2
            refine Or.inr ⟨h0, hh, ?_⟩
            exact foldl_hashToPath_mono hf
        · exact Or.inr h2
      | none =>
        rw [hashStep_new hh hf] at h ⊢
        rcases ih _ dc h with h2 | h2
        · exact Or.inl h2
        · exact Or.inr h2

theorem buildHashMaps_hashToPath_find (hashFn : String → String) (o : IOOracle)
    (fs : FS) (rem : List String) (hv : String) :
    assocFind? ((buildHashMaps hashFn o fs rem).hashToPath) hv
      = rem.find? (hashIs hashFn o fs hv) := by
  unfold buildHashMaps
  cases hfind : rem.find? (hashIs hashFn o fs hv) with
  | some pth =>
    exact (foldl_hashToPath_first rem ⟨[], []⟩ hv pth).mpr (Or.inr ⟨rfl, hfind⟩)
  | none =>
    cases hassoc : assocFind? ((rem.foldl (hashStep hashFn o fs) ⟨[], []⟩).hashToPath) hv with
    | none => rfl
    | some pth =>
      rcases (foldl_hashToPath_first rem ⟨[], []⟩ hv pth).mp hassoc with h | ⟨-, h⟩
      · simp [assocFind?] at h
      · rw [hfind] at h
        cases h

theorem buildHashMaps_dup_first (hashFn : String → String) (o : IOOracle)
    (fs : FS) (rem : List String) (dc : String × String)
    (hdc : dc ∈ (buildHashMaps hashFn o fs rem).duplicates) :
    ∃ h0, hashFile hashFn o fs dc.1 = .ok h0 ∧
      rem.find? (hashIs hashFn o fs h0) = some dc.2 := by
  unfold buildHashMaps at hdc
  rcases buildHashMaps_canonical rem ⟨[], []⟩ dc hdc with h | ⟨h0, hh, hfind⟩
  · simp at h
  · refine ⟨h0, hh, ?_⟩
    have heq := buildHashMaps_hashToPath_find hashFn o fs rem h0
    unfold buildHashMaps at heq
    rw [heq] at hfind
    exact hfind

theorem walkRoot_under (root : String) (cs : List FTree) :
    ∀ f ∈ walkRoot root cs, isUnder root f.path = true := by
  intro f hf
  unfold walkRoot at hf
  rw [List.mem_flatMap] at hf
  obtain ⟨c, hc, hfc⟩ := hf
  obtain ⟨rest, hrest⟩ := walkTree_under c.size c (le_refl _) root f hfc
  unfold isUnder
  rw [List.isPrefixOf_iff_prefix, hrest]
  rw [show root.data ++ '/' :: rest = (root.data ++ ['/']) ++ rest by simp]
  exact List.prefix_append _ _

theorem walkFiles_append_notUnder (root : String) (cs : List FTree) (other : FS)
    (hwf : FTree.wfL cs = true) (hdist : allDistinct (cs.map FTree.name) = true)
    (hother : ∀ f ∈ other, isUnder root f.path = false) :
    walkFiles (walkRoot root cs ++ other) root = walkRoot root cs := by
  unfold walkFiles
  rw [List.filter_append]
  rw [List.filter_eq_self.mpr (fun f hf => walkRoot_under root cs f hf)]
  rw [List.filter_eq_nil.mpr (fun f hf => by simp [hother f hf])]
  rw [List.append_nil]
  exact List.Sorted.insertionSort_eq
    ((walkRoot_sorted root cs hwf hdist).imp (fun hab => hab.1))

theorem walkFiles_prepend_notUnder (root : String) (cs : List FTree) (other : FS)
    (hwf : FTree.wfL cs = true) (hdist : allDistinct (cs.map FTree.name) = true)
    (hother : ∀ f ∈ other, isUnder root f.path = false) :
    walkFiles (other ++ walkRoot root cs) root = walkRoot root cs := by
  unfold walkFiles
  rw [List.filter_append]
  rw [List.filter_eq_self.mpr (fun f hf => walkRoot_under root cs f hf)]
  rw [List.filter_eq_nil.mpr (fun f hf => by simp [hother f hf])]
  rw [List.nil_append]
  exact List.Sorted.insertionSort_eq
    ((walkRoot_sorted root cs hwf hdist).imp (fun hab => hab.1))

/-- C7: canonical selection is deterministic and first-in-walk-order.  On
a state that is the walk of a notes tree followed by the walk of a
(disjoint) journal tree: (1) the attachment inventory is exactly the
image files of the recursive notes-tree walk followed by those of the
journal-tree walk; (2)–(3) each tree's walk is strictly sorted in the
lexicographic-by-directory path order, so the inventory order is the walk
order; (4) for every content digest, the canonical path recorded by the
dedup pass is exactly the first file in inventory order whose hash is
that digest; and (5) every scheduled duplicate is mapped to the first
inventory member sharing its digest. -/
theorem canonical_selection_first_in_walk_order
    (hashFn : String → String) (o : IOOracle) (nd jd : String)
    (csN csJ : List FTree) (fs : FS) (rem : List String) (hv : String)
    (dc : String × String)
    (hwfN : FTree.wfL csN = true)
    (hdN : allDistinct (csN.map FTree.name) = true)
    (hwfJ : FTree.wfL csJ = true)
    (hdJ : allDistinct (csJ.map FTree.name) = true)
    (hfs : fs = walkRoot nd csN ++ walkRoot jd csJ)
    (hJN : ∀ f ∈ walkRoot jd csJ, isUnder nd f.path = false)
    (hNJ : ∀ f ∈ walkRoot nd csN, isUnder jd f.path = false)
    (hdc : dc ∈ (buildHashMaps hashFn o fs rem).duplicates) :
    findAllImages fs nd jd
        = ((walkRoot nd csN).map FSFile.path).filter isImagePath
          ++ ((walkRoot jd csJ).map FSFile.path).filter isImagePath
      ∧ List.Pairwise (fun p q => pathLe p q = true ∧ p ≠ q)
          ((walkRoot nd csN).map FSFile.path)
      ∧ List.Pairwise (fun p q => pathLe p q = true ∧ p ≠ q)
          ((walkRoot jd csJ).map FSFile.path)
      ∧ assocFind? ((buildHashMaps hashFn o fs rem).hashToPath) hv
          = rem.find? (hashIs hashFn o fs hv)
      ∧ ∃ h0, hashFile hashFn o fs dc.1 = .ok h0 ∧
          rem.find? (hashIs hashFn o fs h0) = some dc.2 := by
  subst hfs
  refine ⟨?_, ?_, ?_,
    buildHashMaps_hashToPath_find hashFn o _ rem hv,
    buildHashMaps_dup_first hashFn o _ rem dc hdc⟩
  · unfold findAllImages
    rw [walkFiles_append_notUnder nd csN _ hwfN hdN hJN,
        walkFiles_prepend_notUnder jd csJ _ hwfJ hdJ hNJ,
        List.filterMap_append,
        filterMap_guard_map _ FSFile.path isImagePath,
        filterMap_guard_map _ FSFile.path isImagePath]
  · rw [List.pairwise_map]
    exact walkRoot_sorted nd csN hwfN hdN
  · rw [List.pairwise_map]
    exact walkRoot_sorted jd csJ hwfJ hdJ

/-! ### No two surviving attachments share a digest (claim C4) -/

theorem CleanImages_eq (hashFn : String → String) (o : IOOracle)
    (nd jd : String) (fs : FS) :
    CleanImages hashFn o nd jd fs = .ok
      (processDuplicates o nd jd
        (buildHashMaps hashFn o (step4 o nd jd fs).2
          (findAllImages (step4 o nd jd fs).2 nd jd)).duplicates
        (step4 o nd jd fs)) := rfl

theorem fsLookup_isSome_of_mem {fs : FS} {f : FSFile} {p : String}
    (hf : f ∈ fs) (hp : f.path = p) : (fsLookup fs p).isSome = true := by
  unfold fsLookup
  rw [List.find?_isSome]
  exact ⟨f, hf, by rw [hp]; simp⟩

theorem fsLookup_mem {fs : FS} {f : FSFile} {p : String}
    (h : fsLookup fs p = some f) : f ∈ fs ∧ f.path = p := by
  unfold fsLookup at h
  exact ⟨List.mem_of_find?_eq_some h,
    eq_of_beq (@List.find?_some FSFile (fun g => g.path == p) f fs h)⟩

theorem refsOfDoc_FilePath {f : FSFile} {r : ImageReference}
    (h : r ∈ refsOfDoc f) : r.FilePath = f.path := by
  unfold refsOfDoc at h
  rw [List.mem_flatMap] at h
  obtain ⟨li, hli, h2⟩ := h
  rw [List.mem_filterMap] at h2
  obtain ⟨m, hm, hsome⟩ := h2
  split at hsome
  · rw [Option.some.injEq] at hsome
    rw [← hsome]
  · cases hsome

theorem findAllImageReferences_md {o : IOOracle} {fs : FS} {nd jd : String}
    {r : ImageReference} (h : r ∈ findAllImageReferences o fs nd jd) :
    hasSuffixStr r.FilePath ".md" = true := by
  unfold findAllImageReferences at h
  rw [List.mem_flatMap] at h
  obtain ⟨f, hf, hr⟩ := h
  split at hr
  · rename_i hcond
    rw [Bool.and_eq_true] at hcond
    rw [refsOfDoc_FilePath hr]
    exact hcond.1
  · cases hr

theorem groupByFile_keys_md {refs : List ImageReference}
    (hall : ∀ r ∈ refs, hasSuffixStr r.FilePath ".md" = true) :
    ∀ pr ∈ groupByFile refs, hasSuffixStr pr.1 ".md" = true := by
  unfold groupByFile
  suffices main : ∀ (L : List ImageReference)
      (acc : List (String × List ImageReference)),
      (∀ r ∈ L, hasSuffixStr r.FilePath ".md" = true) →
      (∀ pr ∈ acc, hasSuffixStr pr.1 ".md" = true) →
      ∀ pr ∈ L.foldl (fun acc r =>
        if acc.any (fun pr => pr.1 == r.FilePath) then
          acc.map (fun pr => if pr.1 == r.FilePath then (pr.1, pr.2 ++ [r]) else pr)
        else acc ++ [(r.FilePath, [r])]) acc, hasSuffixStr pr.1 ".md" = true by
    exact main refs [] hall (by intro pr hpr; cases hpr)
  intro L
  induction L with
  | nil =>
    intro acc _ hacc pr hpr
    exact hacc pr hpr
  | cons r t ih =>
    intro acc hall2 hacc pr hpr
    rw [List.foldl_cons] at hpr
    refine ih _ (fun x hx => hall2 x (List.mem_cons_of_mem _ hx)) ?_ pr hpr
    intro pr2 hpr2
    split at hpr2
    · rw [List.mem_map] at hpr2
      obtain ⟨pr3, hpr3, heq⟩ := hpr2
      have h3 := hacc pr3 hpr3
      split at heq
      · rw [← heq]
        exact h3
      · rw [← heq]
        exact h3
    · rw [List.mem_append] at hpr2
      rcases hpr2 with h2 | h2
      · exact hacc pr2 h2
      · rw [List.mem_singleton] at h2
        rw [h2]
        exact hall2 r (List.mem_cons_self r t)

theorem ufr_lookup_ne {o : IOOracle} {fs : FS} {fp : String}
    {refs : List ImageReference} {newP : String} {fs2 : FS}
    (h : updateFileReferences o fs fp refs newP = .ok fs2)
    {p : String} (hne : p ≠ fp) : fsLookup fs2 p = fsLookup fs p := by
  unfold updateFileReferences at h
  split at h
  · cases h
  · split at h
    · cases h
    · split at h
      · cases h
      · split at h
        · cases h
        · rw [Except.ok.injEq] at h
          subst h
          exact fsLookup_fsWrite_ne fs fp _ p hne

theorem uir_lookup_img (o : IOOracle) (fs : FS) (nd jd oldP newP p : String)
    (himg : isImagePath p = true) :
    fsLookup (updateImageReferences o fs nd jd oldP newP).2 p = fsLookup fs p := by
  unfold updateImageReferences
  dsimp only
  have hkeys : ∀ pr ∈ groupByFile ((findAllImageReferences o fs nd jd).filter
      (fun r => normalizeImagePath r.ImagePath (dirPath r.FilePath) == oldP)),
      hasSuffixStr pr.1 ".md" = true := by
    apply groupByFile_keys_md
    intro r hr
    exact findAllImageReferences_md (List.mem_of_mem_filter hr)
  suffices main : ∀ (L : List (String × List ImageReference)) (acc : Nat × FS),
      (∀ pr ∈ L, hasSuffixStr pr.1 ".md" = true) →
      fsLookup (L.foldl (uirStep o newP) acc).2 p = fsLookup acc.2 p by
    exact main _ (0, fs) hkeys
  intro L
  induction L with
  | nil =>
    intro acc _
    rfl
  | cons pr t ih =>
    intro acc hmd
    rw [List.foldl_cons]
    rw [ih _ (fun x hx => hmd x (List.mem_cons_of_mem _ hx))]
    unfold uirStep
    cases hu : updateFileReferences o acc.2 pr.1 pr.2 newP with
    | error e => rfl
    | ok fs3 =>
      dsimp only
      refine ufr_lookup_ne hu ?_
      intro hpe
      rw [hpe, md_not_image (hmd pr (List.mem_cons_self pr t))] at himg
      cases himg

theorem dupStep_lookup_preserved (o : IOOracle) (nd jd : String)
    (acc : CleanupStats × FS) (dc : String × String) (p : String) (f : FSFile)
    (himg : isImagePath p = true)
    (h : fsLookup (dupStep o nd jd acc dc).2 p = some f) :
    fsLookup acc.2 p = some f := by
  have huir := uir_lookup_img o acc.2 nd jd dc.1 dc.2 p himg
  unfold dupStep at h
  dsimp only at h
  by_cases hrem : ((fsLookup (updateImageReferences o acc.2 nd jd dc.1 dc.2).2
      dc.1).isSome && !o.removeFails dc.1) = true
  · rw [if_pos hrem] at h
    have h2 : fsLookup (fsRemove (updateImageReferences o acc.2 nd jd dc.1 dc.2).2
        dc.1) p = some f := h
    by_cases hpd : p = dc.1
    · rw [hpd, fsLookup_fsRemove_self] at h2
      cases h2
    · rw [fsLookup_fsRemove_ne _ _ _ hpd, huir] at h2
      exact h2
  · rw [if_neg hrem] at h
    have h2 : fsLookup (updateImageReferences o acc.2 nd jd dc.1 dc.2).2 p = some f := h
    rw [huir] at h2
    exact h2

theorem processDuplicates_lookup (o : IOOracle) (nd jd : String) :
    ∀ (dups : List (String × String)) (acc : CleanupStats × FS) (p : String)
      (f : FSFile), isImagePath p = true →
      fsLookup (dups.foldl (dupStep o nd jd) acc).2 p = some f →
      fsLookup acc.2 p = some f := by
  intro dups
  induction dups with
  | nil =>
    intro acc p f _ h
    exact h
  | cons d t ih =>
    intro acc p f himg h
    rw [List.foldl_cons] at h
    exact dupStep_lookup_preserved o nd jd acc d p f himg (ih _ p f himg h)

theorem dupStep_kills (o : IOOracle) (nd jd : String) (acc : CleanupStats × FS)
    (dc : String × String) (hrm : o.removeFails dc.1 = false) :
    (fsLookup (dupStep o nd jd acc dc).2 dc.1).isSome = false := by
  unfold dupStep
  dsimp only
  by_cases hpres : (fsLookup (updateImageReferences o acc.2 nd jd dc.1 dc.2).2
      dc.1).isSome = true
  · rw [if_pos (by rw [hpres, hrm]; rfl)]
    show (fsLookup (fsRemove (updateImageReferences o acc.2 nd jd dc.1 dc.2).2
        dc.1) dc.1).isSome = false
    rw [fsLookup_fsRemove_self]
    rfl
  · have hpres' : (fsLookup (updateImageReferences o acc.2 nd jd dc.1 dc.2).2
        dc.1).isSome = false := by
      revert hpres
      cases (fsLookup (updateImageReferences o acc.2 nd jd dc.1 dc.2).2 dc.1).isSome <;> simp
    rw [if_neg (by rw [hpres']; simp)]
    exact hpres'

theorem dupStep_absent (o : IOOracle) (nd jd : String) (acc : CleanupStats × FS)
    (dc : String × String) (p : String)
    (h : (fsLookup acc.2 p).isSome = false) :
    (fsLookup (dupStep o nd jd acc dc).2 p).isSome = false := by
  have hu := uir_preserves_exists o acc.2 nd jd dc.1 dc.2 p
  unfold dupStep
  dsimp only
  by_cases hrem : ((fsLookup (updateImageReferences o acc.2 nd jd dc.1 dc.2).2
      dc.1).isSome && !o.removeFails dc.1) = true
  · rw [if_pos hrem]
    show (fsLookup (fsRemove (updateImageReferences o acc.2 nd jd dc.1 dc.2).2
        dc.1) p).isSome = false
    by_cases hpd : p = dc.1
    · rw [hpd, fsLookup_fsRemove_self]
      rfl
    · rw [fsLookup_fsRemove_ne _ _ _ hpd, hu]
      exact h
  · rw [if_neg hrem]
    show (fsLookup (updateImageReferences o acc.2 nd jd dc.1 dc.2).2 p).isSome = false
    rw [hu]
    exact h

theorem processDuplicates_absent (o : IOOracle) (nd jd : String) :
    ∀ (dups : List (String × String)) (acc : CleanupStats × FS) (p : String),
      (fsLookup acc.2 p).isSome = false →
      (fsLookup (dups.foldl (dupStep o nd jd) acc).2 p).isSome = false := by
  intro dups
  induction dups with
  | nil =>
    intro acc p h
    exact h
  | cons d t ih =>
    intro acc p h
    rw [List.foldl_cons]
    exact ih _ p (dupStep_absent o nd jd acc d p h)

theorem processDuplicates_kills (o : IOOracle) (nd jd : String)
    (hrm : ∀ x, o.removeFails x = false) :
    ∀ (dups : List (String × String)) (acc : CleanupStats × FS)
      (dc : String × String), dc ∈ dups →
      (fsLookup (dups.foldl (dupStep o nd jd) acc).2 dc.1).isSome = false := by
  intro dups
  induction dups with
  | nil =>
    intro acc dc h
    cases h
  | cons d t ih =>
    intro acc dc h
    rw [List.foldl_cons]
    rcases List.mem_cons.mp h with h1 | h1
    · rw [h1]
      exact processDuplicates_absent o nd jd t _ d.1
        (dupStep_kills o nd jd acc d (hrm d.1))
    · exact ih _ dc h1

theorem mem_findAllImages_iff {fs : FS} {nd jd p : String} :
    p ∈ findAllImages fs nd jd ↔
      ∃ f ∈ fs, f.path = p ∧ (isUnder nd p || isUnder jd p) = true
        ∧ isImagePath p = true := by
  unfold findAllImages
  rw [List.mem_filterMap]
  constructor
  · rintro ⟨f, hf, hg⟩
    rw [List.mem_append] at hf
    split at hg
    · rename_i himg
      rw [Option.some.injEq] at hg
      subst hg
      rcases hf with hf | hf
      · rw [mem_walkFiles] at hf
        exact ⟨f, hf.1, rfl, by rw [hf.2]; rfl, himg⟩
      · rw [mem_walkFiles] at hf
        exact ⟨f, hf.1, rfl, by rw [hf.2]; simp, himg⟩
    · cases hg
  · rintro ⟨f, hmem, hpath, hunder, himg⟩
    subst hpath
    refine ⟨f, ?_, ?_⟩
    · rw [List.mem_append, mem_walkFiles, mem_walkFiles]
      rw [Bool.or_eq_true] at hunder
      rcases hunder with h | h
      · exact Or.inl ⟨hmem, h⟩
      · exact Or.inr ⟨hmem, h⟩
    · rw [if_pos himg]

theorem foldl_duplicates_mono {hashFn : String → String} {o : IOOracle} {fs : FS} :
    ∀ (rem : List String) (m : DedupMaps) (dc : String × String),
      dc ∈ m.duplicates →
      dc ∈ (rem.foldl (hashStep hashFn o fs) m).duplicates := by
  intro rem
  induction rem with
  | nil =>
    intro m dc h
    exact h
  | cons q t ih =>
    intro m dc h
    rw [List.foldl_cons]
    apply ih
    cases hh : hashFile hashFn o fs q with
    | error e =>
      rw [hashStep_error hh]
      exact h
    | ok h0 =>
      cases hf : assocFind? m.hashToPath h0 with
      | some canon =>
        rw [hashStep_dup hh hf]
        show dc ∈ m.duplicates ++ [(q, canon)]
        exact List.mem_append_left _ h
      | none =>
        rw [hashStep_new hh hf]
        exact h

theorem foldl_duplicates_complete {hashFn : String → String} {o : IOOracle} {fs : FS} :
    ∀ (rem : List String) (m : DedupMaps) (p h c : String),
      p ∈ rem → hashFile hashFn o fs p = .ok h →
      assocFind? ((rem.foldl (hashStep hashFn o fs) m).hashToPath) h = some c →
      p ≠ c →
      (p, c) ∈ (rem.foldl (hashStep hashFn o fs) m).duplicates := by
  intro rem
  induction rem with
  | nil =>
    intro m p h c hp
    cases hp
  | cons q t ih =>
    intro m p h c hp hhash hfinal hpc
    rw [List.foldl_cons] at hfinal ⊢
    rcases List.mem_cons.mp hp with hq | hpt
    · subst hq
      cases hf : assocFind? m.hashToPath h with
      | some canon =>
        rw [hashStep_dup hhash hf] at hfinal ⊢
        have hm : assocFind? ({ m with duplicates :=
            m.duplicates ++ [(p, canon)] } : DedupMaps).hashToPath h = some canon := hf
        have hmono := @foldl_hashToPath_mono hashFn o fs t _ h canon hm
        rw [hmono, Option.some.injEq] at hfinal
        apply foldl_duplicates_mono
        show (p, c) ∈ m.duplicates ++ [(p, canon)]
        rw [hfinal]
        exact List.mem_append_right _ (List.mem_singleton.mpr rfl)
      | none =>
        rw [hashStep_new hhash hf] at hfinal
        have hm : assocFind? ({ m with hashToPath :=
            m.hashToPath ++ [(h, p)] } : DedupMaps).hashToPath h = some p := by
          show assocFind? (m.hashToPath ++ [(h, p)]) h = some p
          rw [assocFind?_append_one, hf]
          show (if h = h then some p else none) = some p
          rw [if_pos rfl]
        have hmono := @foldl_hashToPath_mono hashFn o fs t _ h p hm
        rw [hmono, Option.some.injEq] at hfinal
        exact absurd hfinal hpc
    · exact ih (hashStep hashFn o fs m q) p h c hpt hhash hfinal hpc

theorem hashFile_ideal {hashFn : String → String} {fs : FS} {p : String} {f : FSFile}
    (h : fsLookup fs p = some f) :
    hashFile hashFn idealIO fs p = .ok (hashFn f.content) := by
  unfold hashFile
  rw [if_neg (show idealIO.hashOpenFails p ≠ true from fun hc => Bool.false_ne_true hc)]
  rw [h]

theorem hashFile_ideal_inv {hashFn : String → String} {fs : FS} {p hv : String}
    (h : hashFile hashFn idealIO fs p = .ok hv) :
    ∃ f, fsLookup fs p = some f ∧ hv = hashFn f.content := by
  unfold hashFile at h
  rw [if_neg (show idealIO.hashOpenFails p ≠ true from fun hc => Bool.false_ne_true hc)] at h
  cases hl : fsLookup fs p with
  | none =>
    rw [hl] at h
    cases h
  | some f =>
    rw [hl] at h
    rw [Except.ok.injEq] at h
    exact ⟨f, rfl, h.symm⟩

theorem survivors_distinct_digests_aux
    (hashFn : String → String) (nd jd : String)
    (S : CleanupStats × FS) (rem : List String) (maps : DedupMaps) (fs2 : FS)
    (hrem : findAllImages S.2 nd jd = rem)
    (hmaps : buildHashMaps hashFn idealIO S.2 rem = maps)
    (hfs2 : (processDuplicates idealIO nd jd maps.duplicates S).2 = fs2)
    (p q hvp hvq : String)
    (hp : p ∈ findAllImages fs2 nd jd) (hq : q ∈ findAllImages fs2 nd jd)
    (hpq : p ≠ q)
    (hhp : hashFile hashFn idealIO fs2 p = .ok hvp)
    (hhq : hashFile hashFn idealIO fs2 q = .ok hvq) :
    hvp ≠ hvq := by
  intro heq
  obtain ⟨fp2, hlookp2, hvpeq⟩ := hashFile_ideal_inv hhp
  obtain ⟨fq2, hlookq2, hvqeq⟩ := hashFile_ideal_inv hhq
  obtain ⟨fpm, hfpm, hfppath, hunderp, himgp⟩ := mem_findAllImages_iff.mp hp
  obtain ⟨fqm, hfqm, hfqpath, hunderq, himgq⟩ := mem_findAllImages_iff.mp hq
  rw [← hfs2] at hlookp2 hlookq2
  unfold processDuplicates at hlookp2 hlookq2
  have hlookSp := processDuplicates_lookup idealIO nd jd maps.duplicates S p fp2
    himgp hlookp2
  have hlookSq := processDuplicates_lookup idealIO nd jd maps.duplicates S q fq2
    himgq hlookq2
  have hhSp : hashFile hashFn idealIO S.2 p = .ok hvp := by
    rw [hashFile_ideal hlookSp, hvpeq]
  have hhSq : hashFile hashFn idealIO S.2 q = .ok hvq := by
    rw [hashFile_ideal hlookSq, hvqeq]
  have hpmem : p ∈ rem := by
    rw [← hrem]
    exact mem_findAllImages_iff.mpr
      ⟨fp2, (fsLookup_mem hlookSp).1, (fsLookup_mem hlookSp).2, hunderp, himgp⟩
  have hqmem : q ∈ rem := by
    rw [← hrem]
    exact mem_findAllImages_iff.mpr
      ⟨fq2, (fsLookup_mem hlookSq).1, (fsLookup_mem hlookSq).2, hunderq, himgq⟩
  have hsome : (rem.find? (hashIs hashFn idealIO S.2 hvp)).isSome = true := by
    rw [List.find?_isSome]
    refine ⟨p, hpmem, ?_⟩
    unfold hashIs
    rw [hhSp]
    simp
  obtain ⟨c, hc⟩ := Option.isSome_iff_exists.mp hsome
  have hassoc : ∀ hv, rem.find? (hashIs hashFn idealIO S.2 hv) = some c →
      assocFind? ((rem.foldl (hashStep hashFn idealIO S.2) ⟨[], []⟩).hashToPath) hv
        = some c := by
    intro hv hfind
    have hbase := buildHashMaps_hashToPath_find hashFn idealIO S.2 rem hv
    unfold buildHashMaps at hbase
    rw [hbase, hfind]
  have hkillmem : ∀ x, (x, c) ∈ maps.duplicates →
      (fsLookup fs2 x).isSome = false := by
    intro x hx
    rw [← hfs2]
    unfold processDuplicates
    exact processDuplicates_kills idealIO nd jd (fun _ => rfl)
      maps.duplicates S (x, c) hx
  by_cases hpc : p = c
  · have hqc : q ≠ c := fun h2 => hpq (hpc.trans h2.symm)
    have hcq : rem.find? (hashIs hashFn idealIO S.2 hvq) = some c := by
      rw [← heq]
      exact hc
    have hdup : (q, c) ∈ maps.duplicates := by
      rw [← hmaps]
      unfold buildHashMaps
      exact foldl_duplicates_complete rem ⟨[], []⟩ q hvq c hqmem hhSq
        (hassoc hvq hcq) hqc
    have hkilled := hkillmem q hdup
    rw [fsLookup_isSome_of_mem hfqm hfqpath] at hkilled
    cases hkilled
  · have hdup : (p, c) ∈ maps.duplicates := by
      rw [← hmaps]
      unfold buildHashMaps
      exact foldl_duplicates_complete rem ⟨[], []⟩ p hvp c hpmem hhSp
        (hassoc hvp hc) hpc
    have hkilled := hkillmem p hdup
    rw [fsLookup_isSome_of_mem hfpm hfppath] at hkilled
    cases hkilled

/-- C4: after a cleanup run under ideal I/O (a pass that completes with
every per-file operation succeeding), no two distinct attachments of the
remaining inventory have equal content digests: every inventory member
hashing to an already-registered digest is scheduled as a duplicate and
its file is removed in step 6, so two distinct survivors always hash
differently. -/
theorem no_equal_digests_after_cleanup
    (hashFn : String → String) (nd jd : String) (fs : FS)
    (st : CleanupStats) (fs2 : FS)
    (hrun : CleanImages hashFn idealIO nd jd fs = .ok (st, fs2))
    (p q hvp hvq : String)
    (hp : p ∈ findAllImages fs2 nd jd) (hq : q ∈ findAllImages fs2 nd jd)
    (hpq : p ≠ q)
    (hhp : hashFile hashFn idealIO fs2 p = .ok hvp)
    (hhq : hashFile hashFn idealIO fs2 q = .ok hvq) :
    hvp ≠ hvq := by
  rw [CleanImages_eq, Except.ok.injEq] at hrun
  exact survivors_distinct_digests_aux hashFn nd jd (step4 idealIO nd jd fs)
    _ _ fs2 rfl rfl (congrArg Prod.snd hrun) p q hvp hvq hp hq hpq hhp hhq

theorem no_equal_digests_after_cleanup_witness :
    CleanImages id idealIO "/n" "/j" c4FS = .ok (⟨0, 0, 0, 0⟩, c4FS)
      ∧ ("A" : String) ≠ "B" :=
  ⟨rfl, no_equal_digests_after_cleanup id "/n" "/j" c4FS ⟨0, 0, 0, 0⟩ c4FS rfl
    "/n/.attachments/a.png" "/n/.attachments/b.png" "A" "B"
    (by decide) (by decide) (by decide) rfl rfl⟩

/-- C1 (amended): `updateImageReferences` never returns an error — it
swallows every per-document write failure — so the rewrite-then-delete
guard in step 6 is dead code.  For a scheduled duplicate still on disk,
the step-6 iteration removes it exactly when its own `os.Remove`
succeeds: afterwards the duplicate is present iff the removal failed and
the deletion counter has grown iff it succeeded, independently of any
document write-back failure. -/
theorem duplicate_removed_iff_remove_succeeds
    (o : IOOracle) (nd jd : String) (acc : CleanupStats × FS)
    (dc : String × String)
    (hex : (fsLookup acc.2 dc.1).isSome = true) :
    (fsLookup (dupStep o nd jd acc dc).2 dc.1).isSome = o.removeFails dc.1
      ∧ (dupStep o nd jd acc dc).1.DuplicateImagesDeleted
          = (if o.removeFails dc.1 = true then acc.1.DuplicateImagesDeleted
             else acc.1.DuplicateImagesDeleted + 1) := by
  have hu : (fsLookup (updateImageReferences o acc.2 nd jd dc.1 dc.2).2 dc.1).isSome
      = true := by
    rw [uir_preserves_exists o acc.2 nd jd dc.1 dc.2 dc.1]
    exact hex
  unfold dupStep
  dsimp only
  by_cases hrf : o.removeFails dc.1 = true
  · rw [if_neg (by simp [hu, hrf])]
    constructor
    · rw [hu, hrf]
    · rw [hrf, if_pos rfl]
      cases statSize o (updateImageReferences o acc.2 nd jd dc.1 dc.2).2 dc.1 <;> rfl
  · have hrf' : o.removeFails dc.1 = false := by
      revert hrf
      cases o.removeFails dc.1 <;> simp
    rw [if_pos (by rw [hu, hrf']; rfl)]
    constructor
    · rw [fsLookup_fsRemove_self, hrf']
      rfl
    · rw [hrf', if_neg (by simp)]
      cases statSize o (updateImageReferences o acc.2 nd jd dc.1 dc.2).2 dc.1 <;> rfl

theorem duplicate_removed_iff_remove_succeeds_witness :
    (fsLookup (dupStep writeFailOracle "/n" "/j" (zeroStats, dupFS)
          ("/n/.attachments/b.png", "/n/.attachments/a.png")).2
        ("/n/.attachments/b.png", "/n/.attachments/a.png").1).isSome
        = writeFailOracle.removeFails
            ("/n/.attachments/b.png", "/n/.attachments/a.png").1
      ∧ (dupStep writeFailOracle "/n" "/j" (zeroStats, dupFS)
            ("/n/.attachments/b.png", "/n/.attachments/a.png")).1.DuplicateImagesDeleted
          = (if writeFailOracle.removeFails
                  ("/n/.attachments/b.png", "/n/.attachments/a.png").1 = true
             then (zeroStats, dupFS).1.DuplicateImagesDeleted
             else (zeroStats, dupFS).1.DuplicateImagesDeleted + 1) :=
  duplicate_removed_iff_remove_succeeds writeFailOracle "/n" "/j" (zeroStats, dupFS)
    ("/n/.attachments/b.png", "/n/.attachments/a.png") (by decide)

/-- C2 (amended): byte accounting counts attempted deletions, not
completed ones.  For a file not in the referenced set, step 4 adds its
stat size to `BytesFreed` before `os.Remove` is attempted, so the size
is counted whether or not the removal succeeds; a file whose stat fails
contributes nothing yet is still deleted when present and removable; the
step-6 duplicate pass accounts the same way. -/
theorem bytesFreed_counts_attempted_deletions
    (o : IOOracle) (referenced : List String) (nd jd : String)
    (acc : CleanupStats × FS) (p : String) (dc : String × String)
    (hnr : referenced.contains p = false) :
    (delStep o referenced acc p).1.BytesFreed
        = acc.1.BytesFreed + (statSize o acc.2 p).getD 0
      ∧ (statSize o acc.2 p = none →
          (fsLookup acc.2 p).isSome = true → o.removeFails p = false →
          (fsLookup (delStep o referenced acc p).2 p).isSome = false)
      ∧ (dupStep o nd jd acc dc).1.BytesFreed
          = acc.1.BytesFreed
            + (statSize o (updateImageReferences o acc.2 nd jd dc.1 dc.2).2 dc.1).getD 0 := by
  refine ⟨?_, ?_, ?_⟩
  · unfold delStep
    dsimp only
    rw [if_neg (by rw [hnr]; simp)]
    by_cases hrem : ((fsLookup acc.2 p).isSome && !o.removeFails p) = true
    · rw [if_pos hrem]
      cases statSize o acc.2 p <;> rfl
    · rw [if_neg hrem]
      cases statSize o acc.2 p <;> rfl
  · intro hst hlook hrf
    unfold delStep
    dsimp only
    rw [if_neg (by rw [hnr]; simp)]
    rw [if_pos (by rw [hlook, hrf]; rfl)]
    rw [fsLookup_fsRemove_self]
    rfl
  · unfold dupStep
    dsimp only
    by_cases hrem : ((fsLookup (updateImageReferences o acc.2 nd jd dc.1 dc.2).2
        dc.1).isSome && !o.removeFails dc.1) = true
    · rw [if_pos hrem]
      cases statSize o (updateImageReferences o acc.2 nd jd dc.1 dc.2).2 dc.1 <;> rfl
    · rw [if_neg hrem]
      cases statSize o (updateImageReferences o acc.2 nd jd dc.1 dc.2).2 dc.1 <;> rfl

theorem bytesFreed_counts_attempted_deletions_witness :
    (delStep removeFailOracle [] (zeroStats, orphanFS)
          "/n/.attachments/orphan.png").1.BytesFreed
        = (zeroStats, orphanFS).1.BytesFreed
          + (statSize removeFailOracle (zeroStats, orphanFS).2
              "/n/.attachments/orphan.png").getD 0
      ∧ (statSize removeFailOracle (zeroStats, orphanFS).2
            "/n/.attachments/orphan.png" = none →
          (fsLookup (zeroStats, orphanFS).2 "/n/.attachments/orphan.png").isSome = true →
          removeFailOracle.removeFails "/n/.attachments/orphan.png" = false →
          (fsLookup (delStep removeFailOracle [] (zeroStats, orphanFS)
              "/n/.attachments/orphan.png").2 "/n/.attachments/orphan.png").isSome = false)
      ∧ (dupStep removeFailOracle "/n" "/j" (zeroStats, orphanFS)
            ("/n/.attachments/orphan.png", "/n/.attachments/a.png")).1.BytesFreed
          = (zeroStats, orphanFS).1.BytesFreed
            + (statSize removeFailOracle
                (updateImageReferences removeFailOracle (zeroStats, orphanFS).2 "/n" "/j"
                  ("/n/.attachments/orphan.png", "/n/.attachments/a.png").1
                  ("/n/.attachments/orphan.png", "/n/.attachments/a.png").2).2
                ("/n/.attachments/orphan.png", "/n/.attachments/a.png").1).getD 0 :=
  bytesFreed_counts_attempted_deletions removeFailOracle [] "/n" "/j"
    (zeroStats, orphanFS) "/n/.attachments/orphan.png"
    ("/n/.attachments/orphan.png", "/n/.attachments/a.png") (by decide)

theorem canonical_selection_first_in_walk_order_witness :
    findAllImages c7FS "/n" "/j"
        = ((walkRoot "/n" c7TreeN).map FSFile.path).filter isImagePath
          ++ ((walkRoot "/j" ([] : List FTree)).map FSFile.path).filter isImagePath
      ∧ List.Pairwise (fun p q => pathLe p q = true ∧ p ≠ q)
          ((walkRoot "/n" c7TreeN).map FSFile.path)
      ∧ List.Pairwise (fun p q => pathLe p q = true ∧ p ≠ q)
          ((walkRoot "/j" ([] : List FTree)).map FSFile.path)
      ∧ assocFind?
            ((buildHashMaps (fun s => s) idealIO c7FS c7Rem).hashToPath) "IMG"
          = c7Rem.find? (hashIs (fun s => s) idealIO c7FS "IMG")
      ∧ ∃ h0,
          hashFile (fun s => s) idealIO c7FS
              ("/n/.attachments/b.png", "/n/.attachments/a.png").1 = .ok h0 ∧
            c7Rem.find? (hashIs (fun s => s) idealIO c7FS h0)
              = some ("/n/.attachments/b.png", "/n/.attachments/a.png").2 :=
  canonical_selection_first_in_walk_order (fun s => s) idealIO "/n" "/j"
    c7TreeN [] c7FS c7Rem "IMG" ("/n/.attachments/b.png", "/n/.attachments/a.png")
    (by decide) (by decide) rfl rfl rfl (by decide) (by decide) (by decide)

/-! ### Second-run behaviour (claim C3) -/

theorem fsLookup_none_forall {fs : FS} {p : String}
    (h : fsLookup fs p = none) : ∀ f ∈ fs, f.path ≠ p := by
  unfold fsLookup at h
  rw [List.find?_eq_none] at h
  intro f hf he
  exact h f hf (by rw [he]; simp)

theorem nodup_fsRemove {fs : FS} {p : String} (h : nodupPaths fs) :
    nodupPaths (fsRemove fs p) := by
  unfold nodupPaths fsRemove
  exact List.Nodup.sublist (List.Sublist.map _ (List.filter_sublist fs)) h

theorem nodup_fsWrite {fs : FS} {p c : String} (h : nodupPaths fs) :
    nodupPaths (fsWrite fs p c) := by
  unfold nodupPaths fsWrite
  split
  · rw [List.map_map]
    have he : (FSFile.path ∘ fun f =>
        if f.path == p then { f with content := c } else f) = FSFile.path := by
      funext f
      dsimp only [Function.comp]
      split <;> rfl
    rw [he]
    exact h
  · rename_i hnone
    rw [List.map_append, List.nodup_append]
    refine ⟨h, List.nodup_singleton p, ?_⟩
    intro a ha hb
    rw [show (List.map FSFile.path [(⟨p, c⟩ : FSFile)]) = [p] from rfl,
      List.mem_singleton] at hb
    rw [List.mem_map] at ha
    obtain ⟨f, hf, hfa⟩ := ha
    have hl : fsLookup fs p = none := by
      cases hl : fsLookup fs p with
      | none => rfl
      | some g =>
        rw [hl] at hnone
        exact absurd rfl hnone
    exact fsLookup_none_forall hl f hf (by rw [hfa, hb])

theorem nodup_ufr {o : IOOracle} {fs : FS} {fp : String}
    {refs : List ImageReference} {newP : String} {fs2 : FS}
    (h : updateFileReferences o fs fp refs newP = .ok fs2)
    (hn : nodupPaths fs) : nodupPaths fs2 := by
  unfold updateFileReferences at h
  split at h
  · cases h
  · split at h
    · cases h
    · split at h
      · cases h
      · split at h
        · cases h
        · rw [Except.ok.injEq] at h
          subst h
          exact nodup_fsWrite hn

theorem nodup_uirStep (o : IOOracle) (newP : String) (acc : Nat × FS)
    (pr : String × List ImageReference) (h : nodupPaths acc.2) :
    nodupPaths (uirStep o newP acc pr).2 := by
  unfold uirStep
  cases hu : updateFileReferences o acc.2 pr.1 pr.2 newP with
  | error e => exact h
  | ok fs3 =>
    dsimp only
    exact nodup_ufr hu h

theorem nodup_uir (o : IOOracle) (fs : FS) (nd jd oldP newP : String)
    (h : nodupPaths fs) :
    nodupPaths (updateImageReferences o fs nd jd oldP newP).2 := by
  unfold updateImageReferences
  dsimp only
  suffices main : ∀ (L : List (String × List ImageReference)) (acc : Nat × FS),
      nodupPaths acc.2 → nodupPaths (L.foldl (uirStep o newP) acc).2 by
    exact main _ (0, fs) h
  intro L
  induction L with
  | nil =>
    intro acc hacc
    exact hacc
  | cons pr t ih =>
    intro acc hacc
    rw [List.foldl_cons]
    exact ih _ (nodup_uirStep o newP acc pr hacc)

theorem nodup_delStep (o : IOOracle) (refd : List String)
    (acc : CleanupStats × FS) (p : String) (h : nodupPaths acc.2) :
    nodupPaths (delStep o refd acc p).2 := by
  unfold delStep
  dsimp only
  by_cases hc : refd.contains p = true
  · rw [if_pos hc]
    exact h
  · rw [if_neg hc]
    by_cases hrem : ((fsLookup acc.2 p).isSome && !o.removeFails p) = true
    · rw [if_pos hrem]
      show nodupPaths (fsRemove acc.2 p)
      exact nodup_fsRemove h
    · rw [if_neg hrem]
      exact h

theorem nodup_dupStep (o : IOOracle) (nd jd : String)
    (acc : CleanupStats × FS) (dc : String × String) (h : nodupPaths acc.2) :
    nodupPaths (dupStep o nd jd acc dc).2 := by
  have h2 : nodupPaths (updateImageReferences o acc.2 nd jd dc.1 dc.2).2 :=
    nodup_uir o acc.2 nd jd dc.1 dc.2 h
  unfold dupStep
  dsimp only
  by_cases hrem : ((fsLookup (updateImageReferences o acc.2 nd jd dc.1 dc.2).2
      dc.1).isSome && !o.removeFails dc.1) = true
  · rw [if_pos hrem]
    show nodupPaths (fsRemove (updateImageReferences o acc.2 nd jd dc.1 dc.2).2 dc.1)
    exact nodup_fsRemove h2
  · rw [if_neg hrem]
    exact h2

theorem nodup_deleteUnreferenced (o : IOOracle) (refd : List String) :
    ∀ (imgs : List String) (acc : CleanupStats × FS), nodupPaths acc.2 →
      nodupPaths (imgs.foldl (delStep o refd) acc).2 := by
  intro imgs
  induction imgs with
  | nil =>
    intro acc h
    exact h
  | cons p t ih =>
    intro acc h
    rw [List.foldl_cons]
    exact ih _ (nodup_delStep o refd acc p h)

theorem nodup_processDuplicates (o : IOOracle) (nd jd : String) :
    ∀ (dups : List (String × String)) (acc : CleanupStats × FS), nodupPaths acc.2 →
      nodupPaths (dups.foldl (dupStep o nd jd) acc).2 := by
  intro dups
  induction dups with
  | nil =>
    intro acc h
    exact h
  | cons d t ih =>
    intro acc h
    rw [List.foldl_cons]
    exact ih _ (nodup_dupStep o nd jd acc d h)

theorem cleanImages_nodup {hashFn : String → String} {o : IOOracle}
    {nd jd : String} {fs : FS} {st : CleanupStats} {fs2 : FS}
    (hn : nodupPaths fs) (h : CleanImages hashFn o nd jd fs = .ok (st, fs2)) :
    nodupPaths fs2 := by
  rw [CleanImages_eq, Except.ok.injEq] at h
  have h2 := congrArg Prod.snd h
  dsimp only at h2
  rw [← h2]
  unfold processDuplicates
  apply nodup_processDuplicates
  unfold step4 deleteUnreferenced
  exact nodup_deleteUnreferenced o _ _ (zeroStats, fs) hn

theorem delStep_lookup (o : IOOracle) (refd : List String)
    (acc : CleanupStats × FS) (p q : String) (f : FSFile)
    (h : fsLookup (delStep o refd acc p).2 q = some f) :
    fsLookup acc.2 q = some f := by
  unfold delStep at h
  dsimp only at h
  by_cases hc : refd.contains p = true
  · rw [if_pos hc] at h
    exact h
  · rw [if_neg hc] at h
    by_cases hrem : ((fsLookup acc.2 p).isSome && !o.removeFails p) = true
    · rw [if_pos hrem] at h
      have h2 : fsLookup (fsRemove acc.2 p) q = some f := h
      by_cases hqp : q = p
      · rw [hqp, fsLookup_fsRemove_self] at h2
        cases h2
      · rw [fsLookup_fsRemove_ne _ _ _ hqp] at h2
        exact h2
    · rw [if_neg hrem] at h
      exact h

theorem deleteUnreferenced_lookup (o : IOOracle) (refd : List String) :
    ∀ (imgs : List String) (acc : CleanupStats × FS) (q : String) (f : FSFile),
      fsLookup (imgs.foldl (delStep o refd) acc).2 q = some f →
      fsLookup acc.2 q = some f := by
  intro imgs
  induction imgs with
  | nil =>
    intro acc q f h
    exact h
  | cons p t ih =>
    intro acc q f h
    rw [List.foldl_cons] at h
    exact delStep_lookup o refd acc p q f (ih _ q f h)

theorem delStep_stats (o : IOOracle) (refd : List String)
    (acc : CleanupStats × FS) (p : String) :
    (delStep o refd acc p).1.DuplicateImagesDeleted = acc.1.DuplicateImagesDeleted
      ∧ (delStep o refd acc p).1.ReferencesUpdated = acc.1.ReferencesUpdated := by
  unfold delStep
  dsimp only
  by_cases hc : refd.contains p = true
  · rw [if_pos hc]
    exact ⟨rfl, rfl⟩
  · rw [if_neg hc]
    by_cases hrem : ((fsLookup acc.2 p).isSome && !o.removeFails p) = true
    · rw [if_pos hrem]
      constructor <;> (cases statSize o acc.2 p <;> rfl)
    · rw [if_neg hrem]
      constructor <;> (cases statSize o acc.2 p <;> rfl)

theorem deleteUnreferenced_stats (o : IOOracle) (refd : List String) :
    ∀ (imgs : List String) (acc : CleanupStats × FS),
      (imgs.foldl (delStep o refd) acc).1.DuplicateImagesDeleted
          = acc.1.DuplicateImagesDeleted
        ∧ (imgs.foldl (delStep o refd) acc).1.ReferencesUpdated
          = acc.1.ReferencesUpdated := by
  intro imgs
  induction imgs with
  | nil =>
    intro acc
    exact ⟨rfl, rfl⟩
  | cons p t ih =>
    intro acc
    rw [List.foldl_cons]
    obtain ⟨e1, e2⟩ := ih (delStep o refd acc p)
    obtain ⟨d1, d2⟩ := delStep_stats o refd acc p
    rw [e1, e2, d1, d2]
    exact ⟨rfl, rfl⟩

theorem assocFind?_eq_none {l : List (String × String)} {k : String}
    (h : ∀ pr ∈ l, pr.1 ≠ k) : assocFind? l k = none := by
  unfold assocFind?
  rw [List.find?_eq_none.mpr (fun pr hpr => by simp [h pr hpr])]
  rfl

theorem foldl_no_dups {hashFn : String → String} {o : IOOracle} {fs : FS} :
    ∀ (rem : List String) (m : DedupMaps),
      (∀ p ∈ rem, ∀ pr ∈ m.hashToPath, ∀ hp,
        hashFile hashFn o fs p = .ok hp → pr.1 ≠ hp) →
      List.Pairwise (fun p q => ∀ hp hq, hashFile hashFn o fs p = .ok hp →
        hashFile hashFn o fs q = .ok hq → hp ≠ hq) rem →
      (rem.foldl (hashStep hashFn o fs) m).duplicates = m.duplicates := by
  intro rem
  induction rem with
  | nil =>
    intro m _ _
    rfl
  | cons q t ih =>
    intro m hkeys hpw
    rw [List.pairwise_cons] at hpw
    obtain ⟨hhead, hpwt⟩ := hpw
    rw [List.foldl_cons]
    cases hh : hashFile hashFn o fs q with
    | error e =>
      rw [hashStep_error hh]
      exact ih m (fun p hp => hkeys p (List.mem_cons_of_mem _ hp)) hpwt
    | ok h0 =>
      have hnone : assocFind? m.hashToPath h0 = none :=
        assocFind?_eq_none (fun pr hpr =>
          hkeys q (List.mem_cons_self q t) pr hpr h0 hh)
      rw [hashStep_new hh hnone]
      refine ih _ ?_ hpwt
      intro p hp pr hpr hp2 hhp
      have hpr2 : pr ∈ m.hashToPath ++ [(h0, q)] := hpr
      rcases List.mem_append.mp hpr2 with h3 | h3
      · exact hkeys p (List.mem_cons_of_mem _ hp) pr h3 hp2 hhp
      · rw [List.mem_singleton] at h3
        rw [h3]
        exact hhead p hp h0 hp2 hh hhp

theorem findAllImages_nodup {fs : FS} {nd jd : String}
    (h : nodupPaths fs)
    (hsep : ∀ p, ¬(isUnder nd p = true ∧ isUnder jd p = true)) :
    (findAllImages fs nd jd).Nodup := by
  have hwalk : ∀ root, ((walkFiles fs root).map FSFile.path).Nodup := by
    intro root
    have hperm : List.Perm ((walkFiles fs root).map FSFile.path)
        ((fs.filter (fun f => isUnder root f.path)).map FSFile.path) :=
      (List.perm_insertionSort _ _).map _
    refine hperm.nodup_iff.mpr ?_
    exact List.Nodup.sublist (List.Sublist.map _ (List.filter_sublist fs)) h
  have hunder : ∀ root a, a ∈ ((walkFiles fs root).map FSFile.path).filter isImagePath →
      isUnder root a = true := by
    intro root a ha
    have ha2 := List.mem_of_mem_filter ha
    rw [List.mem_map] at ha2
    obtain ⟨f, hf, hfa⟩ := ha2
    rw [← hfa]
    exact (mem_walkFiles.mp hf).2
  unfold findAllImages
  rw [List.filterMap_append, filterMap_guard_map _ FSFile.path isImagePath,
    filterMap_guard_map _ FSFile.path isImagePath, List.nodup_append]
  refine ⟨(hwalk nd).filter _, (hwalk jd).filter _, ?_⟩
  intro a ha hb
  exact hsep a ⟨hunder nd a ha, hunder jd a hb⟩

theorem isUnder_sep {nd jd : String}
    (hlen : nd.data.length = jd.data.length) (hne : nd.data ≠ jd.data) :
    ∀ p, ¬(isUnder nd p = true ∧ isUnder jd p = true) := by
  rintro p ⟨h1, h2⟩
  unfold isUnder at h1 h2
  rw [List.isPrefixOf_iff_prefix] at h1 h2
  have e1 : nd.data ++ ['/'] = p.data.take (nd.data ++ ['/']).length :=
    List.prefix_iff_eq_take.mp h1
  have e2 : jd.data ++ ['/'] = p.data.take (jd.data ++ ['/']).length :=
    List.prefix_iff_eq_take.mp h2
  apply hne
  have hsame : nd.data ++ ['/'] = jd.data ++ ['/'] := by
    rw [e1, e2, List.length_append, List.length_append, hlen]
  have := List.append_inj_left hsame (by rw [hlen])
  exact this

/-- C3 (amended): duplicate-related work is not repeated: under ideal
I/O, on an input state with pairwise distinct file paths and disjoint
managed roots, the second of two consecutive cleanup runs deletes no
duplicates and updates no references — the first run leaves no two
surviving attachments with equal digests, so the second's dedup pass
schedules nothing.  The original claim's all-zero statistics are
refuted: the second run's orphan-deletion counters can be nonzero,
because a first-run rewrite can corrupt a reference whose raw path
encloses a duplicate marker (see the counterexample). -/
theorem second_run_no_duplicate_work
    (hashFn : String → String) (nd jd : String) (fs : FS)
    (st : CleanupStats) (fs2 : FS) (st2 : CleanupStats) (fs3 : FS)
    (hnodup : nodupPaths fs)
    (hsep : ∀ p, ¬(isUnder nd p = true ∧ isUnder jd p = true))
    (h1 : CleanImages hashFn idealIO nd jd fs = .ok (st, fs2))
    (h2 : CleanImages hashFn idealIO nd jd fs2 = .ok (st2, fs3)) :
    st2.DuplicateImagesDeleted = 0 ∧ st2.ReferencesUpdated = 0 := by
  have hnodup2 : nodupPaths fs2 := cleanImages_nodup hnodup h1
  rw [CleanImages_eq, Except.ok.injEq] at h1
  have hdiff : ∀ p q hvp hvq, p ∈ findAllImages fs2 nd jd →
      q ∈ findAllImages fs2 nd jd → p ≠ q →
      hashFile hashFn idealIO fs2 p = .ok hvp →
      hashFile hashFn idealIO fs2 q = .ok hvq → hvp ≠ hvq := by
    intro p q hvp hvq hp hq hne hhp hhq
    exact survivors_distinct_digests_aux hashFn nd jd (step4 idealIO nd jd fs)
      _ _ fs2 rfl rfl (congrArg Prod.snd h1) p q hvp hvq hp hq hne hhp hhq
  have hnodupS2 : nodupPaths (step4 idealIO nd jd fs2).2 := by
    unfold step4 deleteUnreferenced
    exact nodup_deleteUnreferenced idealIO _ _ (zeroStats, fs2) hnodup2
  have hrem2 : (findAllImages (step4 idealIO nd jd fs2).2 nd jd).Nodup :=
    findAllImages_nodup hnodupS2 hsep
  have htrans : ∀ p hp, p ∈ findAllImages (step4 idealIO nd jd fs2).2 nd jd →
      hashFile hashFn idealIO (step4 idealIO nd jd fs2).2 p = .ok hp →
      p ∈ findAllImages fs2 nd jd ∧ hashFile hashFn idealIO fs2 p = .ok hp := by
    intro p hp hmem hhash
    obtain ⟨f, hlookS2, hpeq⟩ := hashFile_ideal_inv hhash
    have hlook2 : fsLookup fs2 p = some f := by
      unfold step4 deleteUnreferenced at hlookS2
      exact deleteUnreferenced_lookup idealIO _ _ (zeroStats, fs2) p f hlookS2
    obtain ⟨fm, hfm1, hfm2, hund, himg⟩ := mem_findAllImages_iff.mp hmem
    constructor
    · exact mem_findAllImages_iff.mpr
        ⟨f, (fsLookup_mem hlook2).1, (fsLookup_mem hlook2).2, hund, himg⟩
    · rw [hashFile_ideal hlook2, hpeq]
  have hpair : List.Pairwise (fun p q => ∀ hp hq,
      hashFile hashFn idealIO (step4 idealIO nd jd fs2).2 p = .ok hp →
      hashFile hashFn idealIO (step4 idealIO nd jd fs2).2 q = .ok hq → hp ≠ hq)
      (findAllImages (step4 idealIO nd jd fs2).2 nd jd) := by
    refine List.Pairwise.imp_of_mem ?_ hrem2
    intro p q hpmem hqmem hne hp hq hhp hhq
    obtain ⟨hpm2, hhp2⟩ := htrans p hp hpmem hhp
    obtain ⟨hqm2, hhq2⟩ := htrans q hq hqmem hhq
    exact hdiff p q hp hq hpm2 hqm2 hne hhp2 hhq2
  have hdups : (buildHashMaps hashFn idealIO (step4 idealIO nd jd fs2).2
      (findAllImages (step4 idealIO nd jd fs2).2 nd jd)).duplicates = [] := by
    unfold buildHashMaps
    exact foldl_no_dups _ ⟨[], []⟩ (fun p hp pr hpr => by cases hpr) hpair
  rw [CleanImages_eq, Except.ok.injEq] at h2
  rw [hdups] at h2
  have hst2 : st2 = (step4 idealIO nd jd fs2).1 := by
    have h3 := congrArg Prod.fst h2
    exact h3.symm
  rw [hst2]
  obtain ⟨e1, e2⟩ := deleteUnreferenced_stats idealIO
    ((findAllImageReferences idealIO fs2 nd jd).map (fun r =>
      normalizeImagePath r.ImagePath (dirPath r.FilePath)))
    (findAllImages fs2 nd jd) (zeroStats, fs2)
  constructor
  · show (step4 idealIO nd jd fs2).1.DuplicateImagesDeleted = 0
    unfold step4 deleteUnreferenced
    rw [e1]
    rfl
  · show (step4 idealIO nd jd fs2).1.ReferencesUpdated = 0
    unfold step4 deleteUnreferenced
    rw [e2]
    rfl

theorem second_run_no_duplicate_work_witness :
    (⟨0, 0, 0, 0⟩ : CleanupStats).DuplicateImagesDeleted = 0
      ∧ (⟨0, 0, 0, 0⟩ : CleanupStats).ReferencesUpdated = 0 :=
  second_run_no_duplicate_work id "/n" "/j" dupFS ⟨0, 1, 1, 3⟩
    [⟨"/n/doc.md", "![x](.attachments/a.png)\n![y](.attachments/a.png)"⟩,
     ⟨"/n/.attachments/a.png", "IMG"⟩] ⟨0, 0, 0, 0⟩
    [⟨"/n/doc.md", "![x](.attachments/a.png)\n![y](.attachments/a.png)"⟩,
     ⟨"/n/.attachments/a.png", "IMG"⟩]
    (by unfold nodupPaths; decide) (isUnder_sep (by decide) (by decide)) rfl rfl

/-- C3 counterexample: on `c3FS` — where a duplicate's raw path also
occurs as a complete inner marker inside another reference's raw path —
the first run's rewrite corrupts the outer reference, so the second run,
with no intervening changes and no I/O failures, deletes the
newly-orphaned attachment: its statistics are ⟨1, 0, 0, 5⟩, not all
zero. -/
theorem second_run_deletes_after_marker_corruption :
    CleanImages id idealIO "/n" "/j" c3FS = .ok (⟨0, 1, 1, 3⟩, c3FS2)
    ∧ CleanImages id idealIO "/n" "/j" c3FS2 =
        .ok (⟨1, 0, 0, 5⟩,
          [⟨"/n/doc.md", c3Doc2⟩, ⟨"/n/.attachments/a.png", "IMG"⟩])
    ∧ (⟨1, 0, 0, 5⟩ : CleanupStats) ≠ zeroStats :=
  ⟨rfl, rfl, by decide⟩

end Notetkr
